import Mathlib

/-!
# Verification of the rellume calling-convention module (callconv.cc)

This file embeds the calling-convention subsystem of the rellume binary
translator in Lean 4: the convention descriptors (`CallConv`), their
resolution from an LLVM function (`CallConv.FromFunction`), the HHVM
register mapping tables (`hhvm_arg_index`, `hhvm_ret_index`), the
state packer/unpacker (`Pack`, `Unpack`), the boundary code generators
(`Return`, `UnpackParams`, `Call`), and the redundant-store eliminator
(`OptimizePacks`), together with theorems about them.

External collaborators of the module (the LLVM type system, the virtual
register file, the CFG container) are modelled only through the
interface the module consumes, following the code where it is visible
and the specification where it is not.
-/

namespace Rellume

/-! ## Association-list helpers

`llvm::DenseMap` (used for the dataflow map), the register file's
facet-to-value storage and the pack records' slot-to-store maps are all
modelled as association lists with the two operations the code uses:
lookup and insert-or-overwrite. -/

/-- Lookup in an association list; `none` when the key is absent. -/
def alookup {α β : Type} [DecidableEq α] (k : α) : List (α × β) → Option β
  | [] => none
  | (k', v) :: rest => if k' = k then some v else alookup k rest

/-- Insert-or-overwrite in an association list. -/
def astore {α β : Type} [DecidableEq α] (k : α) (v : β) : List (α × β) → List (α × β)
  | [] => [(k, v)]
  | (k', v') :: rest => if k' = k then (k, v) :: rest else (k', v') :: astore k v rest

/-! ## Architectural registers and facets

`X86Reg` (from the register file component, outside the module) is a
kind/index pair; the module only uses equality with `X86Reg::IP`,
`IsGP()` and `Index()`.  A facet is opaque to the module and modelled
as a natural number. -/

inductive X86RegKind : Type where
  | GP
  | IP
  | VEC
  | EFL
  deriving DecidableEq

structure X86Reg : Type where
  kind : X86RegKind
  index : Nat
  deriving DecidableEq

/-- `X86Reg::IsGP()`. -/
def X86Reg.IsGP (r : X86Reg) : Bool := r.kind = X86RegKind.GP

/-- `X86Reg::Index()`. -/
def X86Reg.Index (r : X86Reg) : Nat := r.index

/-- The instruction-pointer register `X86Reg::IP`. -/
def X86Reg.IP : X86Reg := ⟨X86RegKind.IP, 0⟩

/-- A general-purpose register with the given canonical index. -/
def X86Reg.GP (i : Nat) : X86Reg := ⟨X86RegKind.GP, i⟩

abbrev Facet := Nat

/-- A registry entry: (slot index, register, facet), one line of
`cpu_struct_entries`. -/
abbrev RegEntry := Nat × X86Reg × Facet

/-! ## HHVM register mapper -/

/-- `hhvm_is_host_reg`: the IP register and the first 12 GP registers
are passed in host registers under the HHVM convention. -/
def hhvm_is_host_reg (reg : X86Reg) : Bool :=
  reg = X86Reg.IP || (reg.IsGP && reg.Index < 12)

/-- The fixed argument-index table of `hhvm_arg_index`. -/
def hhvm_arg_indices : List Nat := [10, 7, 6, 2, 3, 13, 5, 4, 8, 9, 11, 12]

/-- The fixed return-index table of `hhvm_ret_index`. -/
def hhvm_ret_indices : List Nat := [8, 5, 4, 1, 13, 11, 3, 2, 6, 7, 9, 10]

/-- `hhvm_arg_index`: parameter position of a host-mapped register;
non-GP host registers (i.e. IP) map to 0. -/
def hhvm_arg_index (reg : X86Reg) : Nat :=
  if reg.IsGP && reg.Index < 12 then hhvm_arg_indices.getD reg.Index 0 else 0

/-- `hhvm_ret_index`: return-aggregate position of a host-mapped
register; non-GP host registers (i.e. IP) map to 0. -/
def hhvm_ret_index (reg : X86Reg) : Nat :=
  if reg.IsGP && reg.Index < 12 then hhvm_ret_indices.getD reg.Index 0 else 0

/-- Inverse of the argument-index table: position of a slot in the
table (12 when absent). -/
def hhvm_arg_inv (slot : Nat) : Nat :=
  (hhvm_arg_indices.indexOf slot)

/-- Inverse of the return-index table: position of a slot in the
table (12 when absent). -/
def hhvm_ret_inv (slot : Nat) : Nat :=
  (hhvm_ret_indices.indexOf slot)

/-! ## LLVM types and functions

The module consumes the LLVM type system only through structural
equality of uniqued types, `isPointerTy`, `getPointerAddressSpace`,
the function-type shape and the calling-convention id of a function.
LLVM's type uniquing makes structural equality of this inductive the
exact counterpart of LLVM's pointer equality of types. -/

mutual

inductive LType : Type where
  | voidTy : LType
  | intTy (bits : Nat) : LType
  | ptrTy (pointee : LType) (addrspace : Nat) : LType
  | structTy (fields : LTypeList) : LType
  | fnTy (ret : LType) (params : LTypeList) (vararg : Bool) : LType

inductive LTypeList : Type where
  | nil : LTypeList
  | cons (hd : LType) (tl : LTypeList) : LTypeList

end

mutual

/-- Structural (= LLVM uniqued pointer) equality of types. -/
def LType.decEq : (a b : LType) → Decidable (a = b)
  | .voidTy, .voidTy => isTrue rfl
  | .intTy m, .intTy n =>
      match decEq m n with
      | isTrue h => isTrue (by rw [h])
      | isFalse h => isFalse (by intro he; cases he; exact h rfl)
  | .ptrTy p a, .ptrTy q b =>
      match LType.decEq p q, decEq a b with
      | isTrue h1, isTrue h2 => isTrue (by rw [h1, h2])
      | isFalse h1, _ => isFalse (by intro he; cases he; exact h1 rfl)
      | _, isFalse h2 => isFalse (by intro he; cases he; exact h2 rfl)
  | .structTy fs, .structTy gs =>
      match LTypeList.decEq fs gs with
      | isTrue h => isTrue (by rw [h])
      | isFalse h => isFalse (by intro he; cases he; exact h rfl)
  | .fnTy r ps v, .fnTy s qs w =>
      match LType.decEq r s, LTypeList.decEq ps qs, decEq v w with
      | isTrue h1, isTrue h2, isTrue h3 => isTrue (by rw [h1, h2, h3])
      | isFalse h1, _, _ => isFalse (by intro he; cases he; exact h1 rfl)
      | _, isFalse h2, _ => isFalse (by intro he; cases he; exact h2 rfl)
      | _, _, isFalse h3 => isFalse (by intro he; cases he; exact h3 rfl)
  | .voidTy, .intTy _ => isFalse (by intro h; cases h)
  | .voidTy, .ptrTy _ _ => isFalse (by intro h; cases h)
  | .voidTy, .structTy _ => isFalse (by intro h; cases h)
  | .voidTy, .fnTy _ _ _ => isFalse (by intro h; cases h)
  | .intTy _, .voidTy => isFalse (by intro h; cases h)
  | .intTy _, .ptrTy _ _ => isFalse (by intro h; cases h)
  | .intTy _, .structTy _ => isFalse (by intro h; cases h)
  | .intTy _, .fnTy _ _ _ => isFalse (by intro h; cases h)
  | .ptrTy _ _, .voidTy => isFalse (by intro h; cases h)
  | .ptrTy _ _, .intTy _ => isFalse (by intro h; cases h)
  | .ptrTy _ _, .structTy _ => isFalse (by intro h; cases h)
  | .ptrTy _ _, .fnTy _ _ _ => isFalse (by intro h; cases h)
  | .structTy _, .voidTy => isFalse (by intro h; cases h)
  | .structTy _, .intTy _ => isFalse (by intro h; cases h)
  | .structTy _, .ptrTy _ _ => isFalse (by intro h; cases h)
  | .structTy _, .fnTy _ _ _ => isFalse (by intro h; cases h)
  | .fnTy _ _ _, .voidTy => isFalse (by intro h; cases h)
  | .fnTy _ _ _, .intTy _ => isFalse (by intro h; cases h)
  | .fnTy _ _ _, .ptrTy _ _ => isFalse (by intro h; cases h)
  | .fnTy _ _ _, .structTy _ => isFalse (by intro h; cases h)

def LTypeList.decEq : (a b : LTypeList) → Decidable (a = b)
  | .nil, .nil => isTrue rfl
  | .cons x xs, .cons y ys =>
      match LType.decEq x y, LTypeList.decEq xs ys with
      | isTrue h1, isTrue h2 => isTrue (by rw [h1, h2])
      | isFalse h1, _ => isFalse (by intro he; cases he; exact h1 rfl)
      | _, isFalse h2 => isFalse (by intro he; cases he; exact h2 rfl)
  | .nil, .cons _ _ => isFalse (by intro h; cases h)
  | .cons _ _, .nil => isFalse (by intro h; cases h)

end

instance : DecidableEq LType := LType.decEq

instance : DecidableEq LTypeList := LTypeList.decEq

/-- Build an `LTypeList` from a Lean list (notation convenience). -/
def LTypeList.ofList : List LType → LTypeList
  | [] => .nil
  | t :: ts => .cons t (LTypeList.ofList ts)

/-- `llvm::Type::isPointerTy`. -/
def LType.isPointerTy : LType → Bool
  | .ptrTy _ _ => true
  | _ => false

/-- `llvm::Type::getPointerAddressSpace` (only called on pointers). -/
def LType.pointerAddressSpace : LType → Nat
  | .ptrTy _ a => a
  | _ => 0

/-- LLVM calling-convention ids, as the numeric constants LLVM uses. -/
def CallingConv.C : Nat := 0

def CallingConv.HHVM : Nat := 75

/-- The part of `llvm::Function` consumed here: calling convention id,
return type, parameter types, variadic flag.  `arg_size()` is the
parameter count and `arg_begin()[i].getType()` the i-th parameter
type. -/
structure LLVMFunction : Type where
  cconv : Nat
  retTy : LType
  params : List LType
  varargs : Bool
  deriving DecidableEq

/-- `fn->getType()->getPointerElementType()`: the function's full
type. -/
def LLVMFunction.fnType (fn : LLVMFunction) : LType :=
  .fnTy fn.retTy (LTypeList.ofList fn.params) fn.varargs

/-! ## Convention descriptors -/

inductive CallConv : Type where
  | SPTR
  | HHVM
  | INVALID
  deriving DecidableEq

def i64 : LType := .intTy 64

def i8p (addrspace : Nat) : LType := .ptrTy (.intTy 8) addrspace

/-- `CallConv::FnType`: the exact function type required by each
convention, given the state-struct pointer's address space.
`nullptr` for INVALID is modelled as `none`. -/
def CallConv.FnType : CallConv → Nat → Option LType
  | .SPTR, a => some (.fnTy .voidTy (LTypeList.ofList [i8p a]) false)
  | .HHVM, a =>
      some (.fnTy (.structTy (LTypeList.ofList
                     [i64, i64, i64, i64, i64, i64, i64,
                      i64, i64, i64, i64, i64, i64, i64]))
                  (LTypeList.ofList
                     [i64, i8p a, i64, i64, i64, i64,
                      i64, i64, i64, i64, i64, i64,
                      i64, i64]) false)
  | .INVALID, _ => none

/-- `CallConv::FnCallConv`: the native calling-convention tag. -/
def CallConv.FnCallConv : CallConv → Nat
  | .SPTR => CallingConv.C
  | .HHVM => CallingConv.HHVM
  | .INVALID => CallingConv.C

/-- `CallConv::CpuStructParamIdx`: index of the parameter carrying the
state-struct pointer. -/
def CallConv.CpuStructParamIdx : CallConv → Nat
  | .SPTR => 0
  | .HHVM => 1
  | .INVALID => 0

/-- `CallConv::FromFunction` (the spec's `Resolve`): guess a
convention from the declared calling-convention tag and verify it
against the function's shape; any mismatch yields INVALID. -/
def CallConv.FromFunction (fn : LLVMFunction) : CallConv :=
  let hunch : CallConv := if fn.cconv = CallingConv.HHVM then .HHVM else .SPTR
  if hunch.FnCallConv ≠ fn.cconv then .INVALID
  else
    let sptr_idx := hunch.CpuStructParamIdx
    if sptr_idx ≥ fn.params.length then .INVALID
    else
      let sptr_ty := fn.params.getD sptr_idx .voidTy
      if ¬ sptr_ty.isPointerTy then .INVALID
      else if some fn.fnType ≠ hunch.FnType sptr_ty.pointerAddressSpace then .INVALID
      else hunch

/-! ## IR values and emitted instructions

The module creates IR values and instructions through an `IRBuilder`.
For the theorems we track the emitted instruction sequence
symbolically; a value is identified by how it was produced. -/

inductive Value : Type where
  /-- `llvm::UndefValue::get(i64)`. -/
  | undef : Value
  /-- An opaque pre-existing value (e.g. one held by the register file). -/
  | base (n : Nat) : Value
  /-- The result of `irb.CreateLoad(fi.sptr[slot])`. -/
  | load (slot : Nat) : Value
  /-- `fi.fn->arg_begin()[i]`: the function's i-th parameter. -/
  | param (i : Nat) : Value
  /-- `irb.CreateExtractValue(call, {i})`. -/
  | extract (field : Nat) : Value
  /-- `fi.sptr_raw`: the raw state-struct base pointer. -/
  | sptrRaw : Value
  /-- The call instruction's result value. -/
  | callRes : Value
  deriving DecidableEq

inductive Instr : Type where
  /-- `irb.CreateStore(v, fi.sptr[slot])`. -/
  | store (slot : Nat) (v : Value) : Instr
  /-- `irb.CreateLoad(fi.sptr[slot])`. -/
  | load (slot : Nat) : Instr
  /-- `irb.CreateCall(...)`, with its final argument vector and
  must-tail marking. -/
  | callInst (args : List (Option Value)) (mustTail : Bool) : Instr
  /-- `irb.CreateRetVoid()`. -/
  | retVoid : Instr
  /-- `irb.CreateRet(v)`. -/
  | ret (v : Value) : Instr
  /-- `irb.CreateExtractValue(call, {i})`. -/
  | extractValue (field : Nat) : Instr
  /-- `irb.CreateAggregateRet(...)` of a 14-element aggregate. -/
  | retAgg (vals : List (Option Value)) : Instr
  deriving DecidableEq

/-! ## The virtual register file

Modelled from the spec: the register file's own code (`regfile.cc`) is
not part of the visible source; the spec describes the consumed
interface `get(reg,facet)`, `set(reg,facet,value,markDirty)`,
`clear()`, `dirtyBits()`, `cleanedBits()`.  Per the spec, `set` with
`markDirty=false` leaves the register not-dirty ("the register/facet
is set not-dirty") and `clear()` removes all facets, leaving no
leftover state.  Dirty/cleaned bits live in a fixed-size bit vector
indexed by the external canonical index function `RegisterSetBitIdx`,
modelled as a parameter `bitIdx` into `Fin nb`. -/

abbrev RegKey := X86Reg × Facet

/-- A `RegisterSet`: fixed-size bit vector over `nb` bits. -/
abbrev RSet (nb : Nat) := Finset (Fin nb)

structure RegFile (nb : Nat) : Type where
  vals : List (RegKey × Value)
  dirty : RSet nb
  cleaned : RSet nb
  deriving DecidableEq

/-- Modelled from the spec: `get(reg,facet)` — the current value of
the register/facet (the real register file materializes a value on
demand; absent keys yield an opaque default). -/
def RegFile.GetReg {nb : Nat} (rf : RegFile nb) (k : RegKey) : Value :=
  (alookup k rf.vals).getD (Value.base 0)

/-- Modelled from the spec: `set(reg,facet,value,markDirty)` — stores
the value for the facet and sets its dirty bit to `markDirty`. -/
def RegFile.SetReg {nb : Nat} (rf : RegFile nb) (bitIdx : RegKey → Fin nb)
    (k : RegKey) (v : Value) (markDirty : Bool) : RegFile nb :=
  { rf with
    vals := astore k v rf.vals
    dirty := if markDirty then insert (bitIdx k) rf.dirty
             else rf.dirty.erase (bitIdx k) }

/-- Modelled from the spec: `clear()` — removes all facets; the file
has no leftover state, so nothing remains dirty. -/
def RegFile.Clear {nb : Nat} (rf : RegFile nb) : RegFile nb :=
  { rf with vals := [], dirty := ∅ }

/-! ## Pack records and the per-function context -/

/-- `CallConvPack`: block reference, dirty-register snapshot at pack
time and the map from slot index to the recorded store (identified
here by the stored slot and value). -/
structure CallConvPack (nb : Nat) : Type where
  block_dirty_regs : RSet nb
  bb : Nat
  stores : List (Nat × Value)
  deriving DecidableEq

/-- The part of `FunctionInfo` the module mutates: the ordered pack
record list. -/
structure FunctionInfo (nb : Nat) : Type where
  call_conv_packs : List (CallConvPack nb)
  deriving DecidableEq

/-! ## State packer / unpacker -/

/-- Result of a `Pack` call: updated register file, the new pack
record, the emitted store instructions in order, and the
`(register, value)` pairs handed to the host sink in order. -/
structure PackResult (nb : Nat) : Type where
  rf : RegFile nb
  record : CallConvPack nb
  instrs : List Instr
  sunk : List (X86Reg × Value)
  deriving DecidableEq

/-- The registry loop of `Pack`. -/
def packGo {nb : Nat} (cconv : CallConv) (bitIdx : RegKey → Fin nb) :
    List RegEntry → PackResult nb → PackResult nb
  | [], st => st
  | (slot, reg, facet) :: rest, st =>
      let reg_val := st.rf.GetReg (reg, facet)
      if cconv = CallConv.HHVM ∧ hhvm_is_host_reg reg then
        packGo cconv bitIdx rest { st with sunk := st.sunk ++ [(reg, reg_val)] }
      else
        let idx := bitIdx (reg, facet)
        packGo cconv bitIdx rest
          { rf := { st.rf with dirty := st.rf.dirty.erase idx,
                               cleaned := insert idx st.rf.cleaned }
            record := { st.record with stores := astore slot reg_val st.record.stores }
            instrs := st.instrs ++ [Instr.store slot reg_val]
            sunk := st.sunk }

/-- `Pack(cconv, bb, fi, hhvm_fn)`: appends one pack record capturing
the block and the dirty set, then walks the registry storing each
non-host-mapped entry to its slot and handing host-mapped entries to
the sink. -/
def Pack {nb : Nat} (cconv : CallConv) (registry : List RegEntry)
    (bitIdx : RegKey → Fin nb) (bb : Nat) (rf : RegFile nb)
    (fi : FunctionInfo nb) : PackResult nb × FunctionInfo nb :=
  let st := packGo cconv bitIdx registry
    { rf := rf
      record := { block_dirty_regs := rf.dirty, bb := bb, stores := [] }
      instrs := []
      sunk := [] }
  (st, { fi with call_conv_packs := fi.call_conv_packs ++ [st.record] })

/-- The registry loop of `Unpack`.  Host-mapped registers under HHVM
receive `hhvm_fn reg`; all others a load from their slot; every entry
ends not-dirty. -/
def unpackGo {nb : Nat} (cconv : CallConv) (bitIdx : RegKey → Fin nb)
    (hhvm_fn : X86Reg → Value) :
    List RegEntry → RegFile nb × List Instr → RegFile nb × List Instr
  | [], st => st
  | (slot, reg, facet) :: rest, (rf, instrs) =>
      if cconv = CallConv.HHVM ∧ hhvm_is_host_reg reg then
        unpackGo cconv bitIdx hhvm_fn rest
          (rf.SetReg bitIdx (reg, facet) (hhvm_fn reg) false, instrs)
      else
        let reg_val := Value.load slot
        let rf' := rf.SetReg bitIdx (reg, facet) reg_val false
        unpackGo cconv bitIdx hhvm_fn rest
          ({ rf' with dirty := rf'.dirty.erase (bitIdx (reg, facet)) },
           instrs ++ [Instr.load slot])

/-- `Unpack(cconv, bb, fi, hhvm_fn)`: clears the register file, then
repopulates it from the registry. -/
def Unpack {nb : Nat} (cconv : CallConv) (registry : List RegEntry)
    (bitIdx : RegKey → Fin nb) (rf : RegFile nb) (hhvm_fn : X86Reg → Value) :
    RegFile nb × List Instr :=
  unpackGo cconv bitIdx hhvm_fn registry (rf.Clear, [])

/-! ## Boundary codegen -/

/-- `CallConv::UnpackParams`: unpack with the host source being the
function parameter at the register's argument index. -/
def CallConv.UnpackParams {nb : Nat} (cconv : CallConv)
    (registry : List RegEntry) (bitIdx : RegKey → Fin nb) (rf : RegFile nb) :
    RegFile nb × List Instr :=
  Unpack cconv registry bitIdx rf (fun reg => Value.param (hhvm_arg_index reg))

/-- `CallConv::Return`: pack, with host-mapped values placed into the
14-slot return aggregate (slot 12 pre-filled with undef), then emit an
aggregate return under HHVM or a void return otherwise. -/
def CallConv.Return {nb : Nat} (cconv : CallConv) (registry : List RegEntry)
    (bitIdx : RegKey → Fin nb) (bb : Nat) (rf : RegFile nb)
    (fi : FunctionInfo nb) : RegFile nb × FunctionInfo nb × List Instr :=
  let hhvm_ret0 : List (Option Value) :=
    if cconv = CallConv.HHVM then
      (List.replicate 14 (none : Option Value)).set 12 (some Value.undef)
    else []
  let (st, fi') := Pack cconv registry bitIdx bb rf fi
  let hhvm_ret := st.sunk.foldl
    (fun acc rv => acc.set (hhvm_ret_index rv.1) (some rv.2)) hhvm_ret0
  if cconv = CallConv.HHVM then
    (st.rf, fi', st.instrs ++ [Instr.retAgg hhvm_ret])
  else
    (st.rf, fi', st.instrs ++ [Instr.retVoid])

/-- Result of `CallConv::Call`. -/
structure CallResult (nb : Nat) : Type where
  rf : RegFile nb
  fi : FunctionInfo nb
  instrs : List Instr
  deriving DecidableEq

/-- `CallConv::Call`: build the argument vector (struct pointer at the
convention's index, host-mapped registers at their argument indices
via Pack's sink), emit the call, and either mark it must-tail and
return immediately, or extract the 14 HHVM return fields and unpack
the callee's final state. -/
def CallConv.Call {nb : Nat} (cconv : CallConv) (fn : LLVMFunction)
    (registry : List RegEntry) (bitIdx : RegKey → Fin nb) (bb : Nat)
    (rf : RegFile nb) (fi : FunctionInfo nb) (tail_call : Bool) :
    CallResult nb :=
  let call_args0 : List (Option Value) :=
    (List.replicate fn.params.length (none : Option Value)).set
      cconv.CpuStructParamIdx (some Value.sptrRaw)
  let (st, fi') := Pack cconv registry bitIdx bb rf fi
  let call_args := st.sunk.foldl
    (fun acc rv => acc.set (hhvm_arg_index rv.1) (some rv.2)) call_args0
  if tail_call then
    { rf := st.rf
      fi := fi'
      instrs := st.instrs ++ [Instr.callInst call_args true] ++
        (if fn.retTy = LType.voidTy then [Instr.retVoid]
         else [Instr.ret Value.callRes]) }
  else
    let extracts : List Instr :=
      if cconv = CallConv.HHVM then (List.range 14).map Instr.extractValue
      else []
    let (rf', unpackInstrs) := Unpack cconv registry bitIdx st.rf
      (fun reg => Value.extract (hhvm_ret_index reg))
    { rf := rf'
      fi := fi'
      instrs := st.instrs ++ [Instr.callInst call_args false] ++ extracts ++
        unpackInstrs }

/-! ## The redundant-store eliminator (`CallConv::OptimizePacks`)

The CFG container is external; the module consumes only
`Predecessors()`, `Successors()` per block, the entry block, and each
block's register file's final `CleanedRegs()`/`DirtyRegs()` bits.
Blocks are identified by naturals. -/

structure CFG (nb : Nat) : Type where
  blocks : List Nat
  entry : Nat
  preds : Nat → List Nat
  succs : Nat → List Nat
  cleaned : Nat → RSet nb
  dirty : Nat → RSet nb

/-- The dataflow map: block to `(pre, post)` dirty sets.
`llvm::DenseMap::lookup` yields a default-constructed (empty) pair for
absent keys. -/
abbrev BBMap (nb : Nat) := List (Nat × (RSet nb × RSet nb))

def lookupD {nb : Nat} (m : BBMap nb) (b : Nat) : RSet nb × RSet nb :=
  (alookup b m).getD (∅, ∅)

/-- `pre`: union of the predecessors' recorded post sets. -/
def preOf {nb : Nat} (g : CFG nb) (m : BBMap nb) (bb : Nat) : RSet nb :=
  (g.preds bb).foldl (fun acc p => acc ∪ (lookupD m p).2) ∅

/-- The block transfer function:
`post = (pre & ~cleaned) | dirty`. -/
def transfer {nb : Nat} (g : CFG nb) (bb : Nat) (pre : RSet nb) : RSet nb :=
  (pre \ g.cleaned bb) ∪ g.dirty bb

/-- Worklist state: the dataflow map, the pending set `queue`, and the
vector of blocks enqueued for the next round. -/
structure OPState (nb : Nat) : Type where
  bbMap : BBMap nb
  queue : Finset Nat
  newQueueVec : List Nat

/-- `if (queue.insert(succ).second) new_queue_vec.push_back(succ);`
folded over the successor list. -/
def enqueueSuccs {nb : Nat} (succs : List Nat) (s : OPState nb) : OPState nb :=
  succs.foldl
    (fun s c =>
      if c ∈ s.queue then s
      else { s with queue := insert c s.queue,
                    newQueueVec := s.newQueueVec ++ [c] })
    s

/-- One iteration of the inner `for (BasicBlock* bb : queue_vec)`
body. -/
def processBlock {nb : Nat} (g : CFG nb) (s : OPState nb) (bb : Nat) :
    OPState nb :=
  let s1 : OPState nb := { s with queue := s.queue.erase bb }
  let pre := preOf g s1.bbMap bb
  let post := transfer g bb pre
  let changed : Bool :=
    match alookup bb s1.bbMap with
    | none => true
    | some pq => decide (pq.2 ≠ post)
  let s2 : OPState nb := { s1 with bbMap := astore bb (pre, post) s1.bbMap }
  if changed then enqueueSuccs (g.succs bb) s2 else s2

/-- The inner loop over `queue_vec`. -/
def processVec {nb : Nat} (g : CFG nb) (s : OPState nb) :
    List Nat → OPState nb
  | [] => s
  | bb :: rest => processVec g (processBlock g s bb) rest

/-- The outer `while (!queue.empty())` loop, with explicit fuel
(one unit per round); `none` when the fuel ran out. -/
def dfLoop {nb : Nat} (g : CFG nb) : Nat → OPState nb → List Nat →
    Option (BBMap nb)
  | 0, _, _ => none
  | fuel + 1, s, vec =>
      if s.queue = ∅ then some s.bbMap
      else
        let s' := processVec g { s with newQueueVec := [] } vec
        dfLoop g fuel { s' with newQueueVec := [] } s'.newQueueVec

/-- The dataflow fixed-point phase of `OptimizePacks`, seeded with the
entry block. -/
def optimizeLoop {nb : Nat} (g : CFG nb) (fuel : Nat) : Option (BBMap nb) :=
  dfLoop g fuel ⟨[], {g.entry}, []⟩ [g.entry]

/-- The deletion loop body for one pack record: the slots whose
recorded store is erased (`pack.stores[sptr_idx] && !regset[...]`). -/
def packErasedSlots {nb : Nat} (regset : RSet nb) (registry : List RegEntry)
    (bitIdx : RegKey → Fin nb) (pack : CallConvPack nb) : List Nat :=
  registry.filterMap fun e =>
    if (alookup e.1 pack.stores).isSome ∧ bitIdx e.2 ∉ regset then some e.1
    else none

/-- `CallConv::OptimizePacks`: run the dataflow loop to quiescence,
then for every pack record erase the recorded stores whose register
bit is clear in `pre(record.block) ∪ record.block_dirty_regs`.
Returns, per record, the list of erased slots. -/
def OptimizePacks {nb : Nat} (g : CFG nb) (registry : List RegEntry)
    (bitIdx : RegKey → Fin nb) (fi : FunctionInfo nb) (fuel : Nat) :
    Option (List (CallConvPack nb × List Nat)) :=
  (optimizeLoop g fuel).map fun m =>
    fi.call_conv_packs.map fun pack =>
      (pack, packErasedSlots ((lookupD m pack.bb).1 ∪ pack.block_dirty_regs)
               registry bitIdx pack)

/-! ## Further definitions used by the statements -/

/-- The convention guessed from the declared linkage tag, before
verification (`hunch` in `FromFunction`). -/
def CallConvGuess (fn : LLVMFunction) : CallConv :=
  if fn.cconv = CallingConv.HHVM then CallConv.HHVM else CallConv.SPTR

/-- The spec's verification conditions for `Resolve`, stated as the
spec words them: the guessed linkage matches, the struct-pointer
parameter index is in range, that parameter's type is a pointer, and
the function's full type equals the convention's signature at that
pointer's address space. -/
def ResolveChecks (fn : LLVMFunction) : Prop :=
  (CallConvGuess fn).FnCallConv = fn.cconv ∧
  (CallConvGuess fn).CpuStructParamIdx < fn.params.length ∧
  (fn.params.getD (CallConvGuess fn).CpuStructParamIdx LType.voidTy).isPointerTy ∧
  some fn.fnType =
    (CallConvGuess fn).FnType
      (fn.params.getD (CallConvGuess fn).CpuStructParamIdx
        LType.voidTy).pointerAddressSpace

instance (fn : LLVMFunction) : Decidable (ResolveChecks fn) := by
  unfold ResolveChecks; infer_instance

/-- Whether a registry entry takes the host-register path in
`Pack`/`Unpack`: HHVM convention and a host-mapped register. -/
def hostEntry (c : CallConv) (e : RegEntry) : Bool :=
  c == CallConv.HHVM && hhvm_is_host_reg e.2.1

/-- A one-entry registry holding only the IP register (concrete input
for counterexamples and witnesses). -/
def registryIP : List RegEntry := [(0, X86Reg.IP, 0)]

/-- A trivial bit-index function into a 1-bit register set. -/
def bitIdx1 : RegKey → Fin 1 := fun _ => 0

/-- A register file in which the single bit is dirty and nothing is
cleaned. -/
def rfDirty1 : RegFile 1 := ⟨[], {0}, ∅⟩

/-- An empty per-function context. -/
def fiEmpty1 : FunctionInfo 1 := ⟨[]⟩

/-- The post set recorded for a block (empty when unvisited), i.e.
`bb_map.lookup(b).second`. -/
def postOf {nb : Nat} (m : BBMap nb) (b : Nat) : RSet nb :=
  (lookupD m b).2

/-- Blocks reachable from the CFG's entry along successor edges. -/
inductive Reachable {nb : Nat} (g : CFG nb) : Nat → Prop where
  | entry : Reachable g g.entry
  | step {b c : Nat} : Reachable g b → c ∈ g.succs b → Reachable g c

/-- Wellformedness of the CFG as consumed by `OptimizePacks`: the
entry is a block, edges stay inside the block list, and the
predecessor and successor relations agree. -/
structure CFGWellFormed {nb : Nat} (g : CFG nb) : Prop where
  entry_mem : g.entry ∈ g.blocks
  succ_mem : ∀ b ∈ g.blocks, ∀ c ∈ g.succs b, c ∈ g.blocks
  pred_mem : ∀ b ∈ g.blocks, ∀ p ∈ g.preds b, p ∈ g.blocks
  consistent : ∀ a ∈ g.blocks, ∀ b ∈ g.blocks, a ∈ g.preds b ↔ b ∈ g.succs a

/-- The worklist invariant, maintained while `vec` is the remainder of
the current round's `queue_vec`. -/
structure DFInv {nb : Nat} (g : CFG nb) (s : OPState nb) (vec : List Nat) :
    Prop where
  keys_blocks : ∀ b, (alookup b s.bbMap).isSome → b ∈ g.blocks
  queue_blocks : ∀ b ∈ s.queue, b ∈ g.blocks
  queue_eq : s.queue = vec.toFinset ∪ s.newQueueVec.toFinset
  vec_nodup : vec.Nodup
  nvec_nodup : s.newQueueVec.Nodup
  disj : ∀ b ∈ vec, b ∉ s.newQueueVec
  mono : ∀ b, postOf s.bbMap b ⊆ transfer g b (preOf g s.bbMap b)
  pair : ∀ b pr po, alookup b s.bbMap = some (pr, po) → po = transfer g b pr
  current : ∀ b pr po, alookup b s.bbMap = some (pr, po) → b ∉ s.queue →
    pr = preOf g s.bbMap b
  closed : ∀ b, (alookup b s.bbMap).isSome → ∀ c ∈ g.succs b,
    (alookup c s.bbMap).isSome ∨ c ∈ s.queue
  entry_in : (alookup g.entry s.bbMap).isSome ∨ g.entry ∈ s.queue

/-- Number of blocks not yet in the dataflow map. -/
def unvisited {nb : Nat} (g : CFG nb) (m : BBMap nb) : Nat :=
  (g.blocks.toFinset.filter (fun b => (alookup b m).isNone)).card

/-- Total remaining growth capacity of the recorded post sets. -/
def potential {nb : Nat} (g : CFG nb) (m : BBMap nb) : Nat :=
  (g.blocks.map (fun b => nb - (postOf m b).card)).sum

/-- A bound (+2) on the number of successors any block can enqueue. -/
def succBound {nb : Nat} (g : CFG nb) : Nat :=
  (g.blocks.map (fun b => (g.succs b).length)).sum + 2

/-- Termination measure of the worklist loop. -/
def dfMeasure {nb : Nat} (g : CFG nb) (s : OPState nb) (vec : List Nat) :
    Nat :=
  succBound g * (succBound g * (unvisited g s.bbMap + potential g s.bbMap)
    + (vec.length + s.newQueueVec.length)) + s.newQueueVec.length

/-- A one-block CFG with no edges and no local effects (the trivial
CFG of the no-op case). -/
def cfgTrivial : CFG 1 where
  blocks := [0]
  entry := 0
  preds := fun _ => []
  succs := fun _ => []
  cleaned := fun _ => ∅
  dirty := fun _ => ∅

/-- The spec's cyclic example: entry 0 → header 1 → body 2 → header 1,
header 1 → exit 3; the loop body dirties the bit. -/
def cfgLoop : CFG 1 where
  blocks := [0, 1, 2, 3]
  entry := 0
  preds := fun b =>
    if b = 1 then [0, 2] else if b = 2 then [1] else if b = 3 then [1] else []
  succs := fun b =>
    if b = 0 then [1] else if b = 1 then [2, 3] else if b = 2 then [1] else []
  cleaned := fun _ => ∅
  dirty := fun b => if b = 2 then {0} else ∅

/-- A two-block straight-line CFG over one bit: block 0 cleans the
bit (a pack point), block 1 re-dirties it. -/
def cfgLine : CFG 1 where
  blocks := [0, 1]
  entry := 0
  preds := fun b => if b = 1 then [0] else []
  succs := fun b => if b = 0 then [1] else []
  cleaned := fun b => if b = 0 then {0} else ∅
  dirty := fun b => if b = 1 then {0} else ∅

/-- A pack record at block 0 of `cfgLine` with a recorded store for
slot 0 and an empty dirty snapshot. -/
def packLine : CallConvPack 1 :=
  ⟨∅, 0, [(0, Value.base 0)]⟩

/-- A second pack record at block 1 of `cfgLine` with a recorded
store for slot 0 and the bit dirty in its snapshot. -/
def packLine2 : CallConvPack 1 :=
  ⟨{0}, 1, [(0, Value.base 1)]⟩

/-- A function context holding `packLine` and `packLine2`. -/
def fiLine : FunctionInfo 1 := ⟨[packLine, packLine2]⟩

/-- The converged dataflow map of `cfgLine`. -/
def mLine : BBMap 1 := [(0, (∅, ∅)), (1, (∅, ({0} : Finset (Fin 1))))]

/-! # Theorems -/

theorem alookup_astore {α β : Type} [DecidableEq α] (k k' : α) (v : β)
    (l : List (α × β)) :
    alookup k' (astore k v l) = if k = k' then some v else alookup k' l := by
  induction l with
  | nil => simp [astore, alookup]
  | cons hd tl ih =>
    obtain ⟨k₀, v₀⟩ := hd
    by_cases h0 : k₀ = k
    · subst h0
      simp only [astore, if_pos rfl, alookup]
      by_cases h1 : k₀ = k' <;> simp [h1]
    · simp only [astore, if_neg h0, alookup]
      by_cases h1 : k₀ = k'
      · subst h1
        have : ¬ k = k₀ := fun h => h0 h.symm
        simp [this, alookup]
      · simp [h1, ih]

/-- **C6**: the signature queries.  NATIVE_STRUCT_POINTER (`SPTR`) is
the non-variadic `void(pointer)` with C linkage and struct-pointer
index 0; HOST_REGISTER_ABI (`HHVM`) is the non-variadic function
taking `(i64, pointer, i64×12)` returning an aggregate of `i64×14`,
with the HHVM linkage tag and struct-pointer index 1. -/
theorem fnType_signatures (a : Nat) :
    CallConv.FnType CallConv.SPTR a
      = some (LType.fnTy LType.voidTy
          (LTypeList.ofList [LType.ptrTy (LType.intTy 8) a]) false) ∧
    CallConv.FnCallConv CallConv.SPTR = CallingConv.C ∧
    CallConv.CpuStructParamIdx CallConv.SPTR = 0 ∧
    CallConv.FnType CallConv.HHVM a
      = some (LType.fnTy
          (LType.structTy (LTypeList.ofList (List.replicate 14 i64)))
          (LTypeList.ofList ([i64, LType.ptrTy (LType.intTy 8) a]
            ++ List.replicate 12 i64)) false) ∧
    CallConv.FnCallConv CallConv.HHVM = CallingConv.HHVM ∧
    CallConv.CpuStructParamIdx CallConv.HHVM = 1 :=
  ⟨rfl, rfl, rfl, rfl, rfl, rfl⟩

/-- **C7**: on the 12 host-mapped general-purpose registers the
argument-index table maps injectively into [2,13] and the return-index
table injectively into [1,13]; composing each table with its inverse
recovers the original register index. -/
theorem hhvm_tables_injective :
    ∀ i : Fin 12,
      (2 ≤ hhvm_arg_index (X86Reg.GP i) ∧ hhvm_arg_index (X86Reg.GP i) ≤ 13) ∧
      (1 ≤ hhvm_ret_index (X86Reg.GP i) ∧ hhvm_ret_index (X86Reg.GP i) ≤ 13) ∧
      hhvm_arg_inv (hhvm_arg_index (X86Reg.GP i)) = i ∧
      hhvm_ret_inv (hhvm_ret_index (X86Reg.GP i)) = i ∧
      ∀ j : Fin 12,
        (hhvm_arg_index (X86Reg.GP i) = hhvm_arg_index (X86Reg.GP j) → i = j) ∧
        (hhvm_ret_index (X86Reg.GP i) = hhvm_ret_index (X86Reg.GP j) → i = j) := by
  decide

/-- **C8, counterexample**: the claim's slot assignment is wrong on
the code: GP register 7 (RDI) is assigned argument slot 4, which the
claim's argument-slot set {2,3,5,…,13} omits, and the struct pointer
travels in argument slot 1 (`CpuStructParamIdx` of HHVM), not slot 0. -/
theorem hhvm_slot_claim_counterexample :
    hhvm_arg_index (X86Reg.GP 7) = 4 ∧
    (4 : Nat) ∉ ([2, 3, 5, 6, 7, 8, 9, 10, 11, 12, 13] : List Nat) ∧
    CallConv.CpuStructParamIdx CallConv.HHVM = 1 ∧ (1 : Nat) ≠ 0 := by
  decide

/-- **C8, amended**: under HOST_REGISTER_ABI the 12 host-mapped GP
registers occupy exactly argument slots {2,…,13} and return slots
{1,…,11,13}; the struct pointer is argument slot 1; argument slot 0
and return slot 0 carry the IP register; no register maps to return
slot 12 (the reserved placeholder) or argument slot 1. -/
theorem hhvm_slot_assignment :
    ((List.range 12).map (fun i => hhvm_arg_index (X86Reg.GP i))).toFinset
      = ({2, 3, 4, 5, 6, 7, 8, 9, 10, 11, 12, 13} : Finset Nat) ∧
    ((List.range 12).map (fun i => hhvm_ret_index (X86Reg.GP i))).toFinset
      = ({1, 2, 3, 4, 5, 6, 7, 8, 9, 10, 11, 13} : Finset Nat) ∧
    CallConv.CpuStructParamIdx CallConv.HHVM = 1 ∧
    hhvm_arg_index X86Reg.IP = 0 ∧
    hhvm_ret_index X86Reg.IP = 0 ∧
    (∀ i : Fin 12, hhvm_ret_index (X86Reg.GP i) ≠ 12) ∧
    (∀ i : Fin 12, hhvm_arg_index (X86Reg.GP i) ≠ 1) := by
  decide

/-- `FromFunction` with its local lets inlined. -/
theorem fromFunction_eq (fn : LLVMFunction) :
    CallConv.FromFunction fn =
      (if (CallConvGuess fn).FnCallConv ≠ fn.cconv then CallConv.INVALID
       else if (CallConvGuess fn).CpuStructParamIdx ≥ fn.params.length then
         CallConv.INVALID
       else if ¬ (fn.params.getD (CallConvGuess fn).CpuStructParamIdx
           LType.voidTy).isPointerTy then CallConv.INVALID
       else if some fn.fnType ≠
           (CallConvGuess fn).FnType
             (fn.params.getD (CallConvGuess fn).CpuStructParamIdx
               LType.voidTy).pointerAddressSpace then CallConv.INVALID
       else CallConvGuess fn) := rfl

/-- **C5**: `Resolve` guesses HHVM for the HHVM linkage tag and SPTR
otherwise, returns the guess exactly when the four verification
checks pass, and INVALID otherwise. -/
theorem fromFunction_characterization (fn : LLVMFunction) :
    CallConv.FromFunction fn =
      if ResolveChecks fn then CallConvGuess fn else CallConv.INVALID := by
  rw [fromFunction_eq]
  by_cases h1 : (CallConvGuess fn).FnCallConv = fn.cconv
  · rw [if_neg (fun h => h h1)]
    by_cases h2 : (CallConvGuess fn).CpuStructParamIdx < fn.params.length
    · rw [if_neg (Nat.not_le.mpr h2)]
      by_cases h3 : (fn.params.getD (CallConvGuess fn).CpuStructParamIdx
          LType.voidTy).isPointerTy
      · rw [if_neg (fun h => h h3)]
        by_cases h4 : some fn.fnType =
            (CallConvGuess fn).FnType
              (fn.params.getD (CallConvGuess fn).CpuStructParamIdx
                LType.voidTy).pointerAddressSpace
        · rw [if_neg (fun h => h h4), if_pos ⟨h1, h2, h3, h4⟩]
        · rw [if_pos h4, if_neg (fun c => h4 c.2.2.2)]
      · rw [if_pos h3, if_neg (fun c => h3 c.2.2.1)]
    · rw [if_pos (Nat.not_lt.mp h2), if_neg (fun c => h2 c.2.1)]
  · rw [if_pos h1, if_neg (fun c => h1 c.1)]

/-! ## Lemmas about the packer -/

theorem getReg_eq_of_vals {nb : Nat} {rf1 rf2 : RegFile nb}
    (h : rf1.vals = rf2.vals) : rf1.GetReg = rf2.GetReg := by
  funext k
  simp [RegFile.GetReg, h]

theorem hostEntry_true {c : CallConv} {slot : Nat} {reg : X86Reg} {facet : Facet} :
    hostEntry c (slot, reg, facet) = true ↔
      (c = CallConv.HHVM ∧ hhvm_is_host_reg reg) := by
  simp [hostEntry]

theorem packGo_rf_vals {nb : Nat} (c : CallConv) (bitIdx : RegKey → Fin nb)
    (es : List RegEntry) (st : PackResult nb) :
    (packGo c bitIdx es st).rf.vals = st.rf.vals := by
  induction es generalizing st with
  | nil => rfl
  | cons e rest ih =>
    obtain ⟨slot, reg, facet⟩ := e
    simp only [packGo]
    by_cases h : c = CallConv.HHVM ∧ hhvm_is_host_reg reg
    · rw [if_pos h, ih]
    · rw [if_neg h, ih]

theorem packGo_record_bb {nb : Nat} (c : CallConv) (bitIdx : RegKey → Fin nb)
    (es : List RegEntry) (st : PackResult nb) :
    (packGo c bitIdx es st).record.bb = st.record.bb ∧
    (packGo c bitIdx es st).record.block_dirty_regs
      = st.record.block_dirty_regs := by
  induction es generalizing st with
  | nil => exact ⟨rfl, rfl⟩
  | cons e rest ih =>
    obtain ⟨slot, reg, facet⟩ := e
    simp only [packGo]
    by_cases h : c = CallConv.HHVM ∧ hhvm_is_host_reg reg
    · rw [if_pos h]; exact ih _
    · rw [if_neg h]; exact ih _

theorem packGo_instrs {nb : Nat} (c : CallConv) (bitIdx : RegKey → Fin nb)
    (es : List RegEntry) (st : PackResult nb) :
    (packGo c bitIdx es st).instrs = st.instrs ++
      (es.filter (fun e => !hostEntry c e)).map
        (fun e => Instr.store e.1 (st.rf.GetReg e.2)) := by
  induction es generalizing st with
  | nil => simp [packGo]
  | cons e rest ih =>
    obtain ⟨slot, reg, facet⟩ := e
    simp only [packGo]
    by_cases h : c = CallConv.HHVM ∧ hhvm_is_host_reg reg
    · rw [if_pos h, ih]
      have hh : hostEntry c (slot, reg, facet) = true := hostEntry_true.mpr h
      simp [hh]
    · rw [if_neg h, ih]
      have hh : hostEntry c (slot, reg, facet) = false := by
        rw [Bool.eq_false_iff]
        intro hcontra
        exact h (hostEntry_true.mp hcontra)
      have hv : ({ st.rf with
          dirty := st.rf.dirty.erase (bitIdx (reg, facet)),
          cleaned := insert (bitIdx (reg, facet)) st.rf.cleaned } :
            RegFile nb).GetReg = st.rf.GetReg :=
        getReg_eq_of_vals rfl
      simp [hh, hv, RegFile.GetReg]

theorem packGo_sunk {nb : Nat} (c : CallConv) (bitIdx : RegKey → Fin nb)
    (es : List RegEntry) (st : PackResult nb) :
    (packGo c bitIdx es st).sunk = st.sunk ++
      (es.filter (fun e => hostEntry c e)).map
        (fun e => (e.2.1, st.rf.GetReg e.2)) := by
  induction es generalizing st with
  | nil => simp [packGo]
  | cons e rest ih =>
    obtain ⟨slot, reg, facet⟩ := e
    simp only [packGo]
    by_cases h : c = CallConv.HHVM ∧ hhvm_is_host_reg reg
    · rw [if_pos h, ih]
      have hh : hostEntry c (slot, reg, facet) = true := hostEntry_true.mpr h
      simp [hh, RegFile.GetReg]
    · rw [if_neg h, ih]
      have hh : hostEntry c (slot, reg, facet) = false := by
        rw [Bool.eq_false_iff]
        intro hcontra
        exact h (hostEntry_true.mp hcontra)
      have hv : ({ st.rf with
          dirty := st.rf.dirty.erase (bitIdx (reg, facet)),
          cleaned := insert (bitIdx (reg, facet)) st.rf.cleaned } :
            RegFile nb).GetReg = st.rf.GetReg :=
        getReg_eq_of_vals rfl
      simp [hh, hv]

theorem packGo_dirty {nb : Nat} (c : CallConv) (bitIdx : RegKey → Fin nb)
    (es : List RegEntry) (st : PackResult nb) (i : Fin nb) :
    i ∈ (packGo c bitIdx es st).rf.dirty ↔
      i ∈ st.rf.dirty ∧ ∀ e ∈ es, hostEntry c e = true ∨ bitIdx e.2 ≠ i := by
  induction es generalizing st with
  | nil => simp [packGo]
  | cons e rest ih =>
    obtain ⟨slot, reg, facet⟩ := e
    simp only [packGo]
    by_cases h : c = CallConv.HHVM ∧ hhvm_is_host_reg reg
    · rw [if_pos h, ih]
      have hh : hostEntry c (slot, reg, facet) = true := hostEntry_true.mpr h
      simp [hh]
    · rw [if_neg h, ih]
      have hh : hostEntry c (slot, reg, facet) = false := by
        rw [Bool.eq_false_iff]
        intro hcontra
        exact h (hostEntry_true.mp hcontra)
      simp only [Finset.mem_erase, hh, List.mem_cons]
      constructor
      · rintro ⟨⟨hne, hmem⟩, hrest⟩
        refine ⟨hmem, ?_⟩
        rintro f (rfl | hf)
        · exact Or.inr (fun hcontra => hne (hcontra ▸ rfl))
        · exact hrest f hf
      · rintro ⟨hmem, hall⟩
        have := hall (slot, reg, facet) (Or.inl rfl)
        rcases this with hcontra | hne
        · rw [hh] at hcontra; cases hcontra
        · exact ⟨⟨fun hcontra => hne (by rw [hcontra]), hmem⟩,
            fun f hf => hall f (Or.inr hf)⟩

theorem packGo_cleaned {nb : Nat} (c : CallConv) (bitIdx : RegKey → Fin nb)
    (es : List RegEntry) (st : PackResult nb) (i : Fin nb) :
    i ∈ (packGo c bitIdx es st).rf.cleaned ↔
      i ∈ st.rf.cleaned ∨
        ∃ e ∈ es, hostEntry c e = false ∧ bitIdx e.2 = i := by
  induction es generalizing st with
  | nil => simp [packGo]
  | cons e rest ih =>
    obtain ⟨slot, reg, facet⟩ := e
    simp only [packGo]
    by_cases h : c = CallConv.HHVM ∧ hhvm_is_host_reg reg
    · rw [if_pos h, ih]
      have hh : hostEntry c (slot, reg, facet) = true := hostEntry_true.mpr h
      constructor
      · rintro (hm | ⟨f, hf, hfe⟩)
        · exact Or.inl hm
        · exact Or.inr ⟨f, List.mem_cons_of_mem _ hf, hfe⟩
      · rintro (hm | ⟨f, hf, hfe⟩)
        · exact Or.inl hm
        · rcases List.mem_cons.mp hf with rfl | hf'
          · rw [hh] at hfe; cases hfe.1
          · exact Or.inr ⟨f, hf', hfe⟩
    · rw [if_neg h, ih]
      have hh : hostEntry c (slot, reg, facet) = false := by
        rw [Bool.eq_false_iff]
        intro hcontra
        exact h (hostEntry_true.mp hcontra)
      simp only [Finset.mem_insert, List.mem_cons]
      constructor
      · rintro ((rfl | hm) | ⟨f, hf, hfe⟩)
        · exact Or.inr ⟨(slot, reg, facet), Or.inl rfl, hh, rfl⟩
        · exact Or.inl hm
        · exact Or.inr ⟨f, Or.inr hf, hfe⟩
      · rintro (hm | ⟨f, (rfl | hf), hfe⟩)
        · exact Or.inl (Or.inr hm)
        · exact Or.inl (Or.inl hfe.2.symm)
        · exact Or.inr ⟨f, hf, hfe⟩

theorem packGo_stores_lookup_none {nb : Nat} (c : CallConv)
    (bitIdx : RegKey → Fin nb) (es : List RegEntry) (st : PackResult nb)
    (slot : Nat) (h : ∀ e ∈ es, hostEntry c e = true ∨ e.1 ≠ slot) :
    alookup slot (packGo c bitIdx es st).record.stores
      = alookup slot st.record.stores := by
  induction es generalizing st with
  | nil => rfl
  | cons e rest ih =>
    obtain ⟨slot', reg, facet⟩ := e
    simp only [packGo]
    by_cases hc : c = CallConv.HHVM ∧ hhvm_is_host_reg reg
    · rw [if_pos hc, ih _ (fun f hf => h f (List.mem_cons_of_mem _ hf))]
    · rw [if_neg hc, ih _ (fun f hf => h f (List.mem_cons_of_mem _ hf))]
      have hh : hostEntry c (slot', reg, facet) = false := by
        rw [Bool.eq_false_iff]
        intro hcontra
        exact hc (hostEntry_true.mp hcontra)
      rcases h (slot', reg, facet) (List.mem_cons_self _ _) with hcontra | hne
      · rw [hh] at hcontra; cases hcontra
      · simp only [alookup_astore, if_neg hne]

theorem packGo_stores_lookup {nb : Nat} (c : CallConv)
    (bitIdx : RegKey → Fin nb) (es : List RegEntry) (st : PackResult nb)
    (e : RegEntry) (he : e ∈ es) (hnh : hostEntry c e = false)
    (hnd : (es.map (fun f => f.1)).Nodup) :
    alookup e.1 (packGo c bitIdx es st).record.stores
      = some (st.rf.GetReg e.2) := by
  induction es generalizing st with
  | nil => cases he
  | cons f rest ih =>
    obtain ⟨slot', reg, facet⟩ := f
    simp only [List.map_cons, List.nodup_cons] at hnd
    simp only [packGo]
    by_cases hc : c = CallConv.HHVM ∧ hhvm_is_host_reg reg
    · rw [if_pos hc]
      have he' : e ∈ rest := by
        rcases List.mem_cons.mp he with heq | h'
        · exfalso
          rw [heq, hostEntry_true.mpr hc] at hnh
          exact Bool.noConfusion hnh
        · exact h'
      exact ih _ he' hnd.2
    · rw [if_neg hc]
      rcases List.mem_cons.mp he with heq | he'
      · subst heq
        have hslot : ∀ g ∈ rest, hostEntry c g = true ∨ g.1 ≠ slot' := by
          intro g hg
          right
          intro hcontra
          exact hnd.1 (hcontra ▸ List.mem_map_of_mem _ hg)
        show alookup slot' _ = some (st.rf.GetReg (reg, facet))
        rw [packGo_stores_lookup_none c bitIdx rest _ slot' hslot]
        simp [alookup_astore]
      · rw [ih _ he' hnd.2]
        simp [RegFile.GetReg]

/-- **C3, counterexample**: under HOST_REGISTER_ABI, a host-mapped
registry entry (here the IP register, dirty before the call) is handed
to the host sink but is *not* marked clean: after `Pack` its cleaned
bit is still unset and its dirty bit still set, contradicting the
claim that host-mapped entries are marked clean. -/
theorem pack_host_not_marked_clean :
    (Pack CallConv.HHVM registryIP bitIdx1 5 rfDirty1 fiEmpty1).1.sunk
      = [(X86Reg.IP, Value.base 0)] ∧
    (Pack CallConv.HHVM registryIP bitIdx1 5 rfDirty1 fiEmpty1).1.rf.cleaned
      = ∅ ∧
    (Pack CallConv.HHVM registryIP bitIdx1 5 rfDirty1 fiEmpty1).1.rf.dirty
      = {0} := by
  decide

/-- **C3, amended**: `Pack` appends exactly one pack record capturing
the block and the dirty snapshot; every non-host-mapped entry has its
value stored to its slot, its dirty bit cleared, its cleaned bit set,
and the store recorded under its slot; every host-mapped entry under
HOST_REGISTER_ABI is handed to the host sink, is not stored, and its
dirty and cleaned bits are left exactly as a registry walk that skips
host entries leaves them (in particular unchanged, unless a non-host
entry maps to the same bit). -/
theorem pack_behaviour {nb : Nat} (cconv : CallConv)
    (registry : List RegEntry) (bitIdx : RegKey → Fin nb) (bb : Nat)
    (rf : RegFile nb) (fi : FunctionInfo nb)
    (hnd : (registry.map (fun e => e.1)).Nodup) :
    let st := (Pack cconv registry bitIdx bb rf fi).1
    let fi' := (Pack cconv registry bitIdx bb rf fi).2
    fi'.call_conv_packs = fi.call_conv_packs ++ [st.record] ∧
    st.record.bb = bb ∧
    st.record.block_dirty_regs = rf.dirty ∧
    (∀ e ∈ registry, hostEntry cconv e = false →
      alookup e.1 st.record.stores = some (rf.GetReg e.2) ∧
      Instr.store e.1 (rf.GetReg e.2) ∈ st.instrs ∧
      bitIdx e.2 ∉ st.rf.dirty ∧
      bitIdx e.2 ∈ st.rf.cleaned) ∧
    (∀ e ∈ registry, hostEntry cconv e = true →
      (e.2.1, rf.GetReg e.2) ∈ st.sunk ∧
      alookup e.1 st.record.stores = none) ∧
    (∀ i : Fin nb,
      (i ∈ st.rf.dirty ↔ i ∈ rf.dirty ∧
        ∀ e ∈ registry, hostEntry cconv e = true ∨ bitIdx e.2 ≠ i) ∧
      (i ∈ st.rf.cleaned ↔ i ∈ rf.cleaned ∨
        ∃ e ∈ registry, hostEntry cconv e = false ∧ bitIdx e.2 = i)) := by
  intro st fi'
  have hst : st = packGo cconv bitIdx registry
      ⟨rf, ⟨rf.dirty, bb, []⟩, [], []⟩ := rfl
  refine ⟨rfl, (packGo_record_bb _ _ _ _).1, (packGo_record_bb _ _ _ _).2,
    ?_, ?_, ?_⟩
  · intro e he hnh
    refine ⟨?_, ?_, ?_, ?_⟩
    · rw [hst, packGo_stores_lookup cconv bitIdx registry _ e he hnh hnd]
    · rw [hst, packGo_instrs]
      simp only [List.nil_append]
      exact List.mem_map_of_mem _ (List.mem_filter.mpr ⟨he, by simp [hnh]⟩)
    · rw [hst, packGo_dirty]
      rintro ⟨-, hall⟩
      rcases hall e he with hcontra | hne
      · rw [hnh] at hcontra; exact Bool.noConfusion hcontra
      · exact hne rfl
    · rw [hst, packGo_cleaned]
      exact Or.inr ⟨e, he, hnh, rfl⟩
  · intro e he hh
    constructor
    · rw [hst, packGo_sunk]
      simp only [List.nil_append]
      exact List.mem_map_of_mem _ (List.mem_filter.mpr ⟨he, by simp [hh]⟩)
    · have hslot : ∀ g ∈ registry, hostEntry cconv g = true ∨ g.1 ≠ e.1 := by
        intro g hg
        by_cases hgs : g.1 = e.1
        · have : g = e := List.inj_on_of_nodup_map hnd hg he hgs
          rw [this]
          exact Or.inl hh
        · exact Or.inr hgs
      rw [hst, packGo_stores_lookup_none cconv bitIdx registry _ e.1 hslot]
      rfl
  · intro i
    constructor
    · rw [hst, packGo_dirty]
    · rw [hst, packGo_cleaned]

/-! ## Lemmas about the unpacker -/

theorem unpackGo_dirty_subset {nb : Nat} (c : CallConv)
    (bitIdx : RegKey → Fin nb) (hs : X86Reg → Value) (es : List RegEntry)
    (st : RegFile nb × List Instr) :
    (unpackGo c bitIdx hs es st).1.dirty ⊆ st.1.dirty := by
  induction es generalizing st with
  | nil => exact fun i hi => hi
  | cons e rest ih =>
    obtain ⟨slot, reg, facet⟩ := e
    obtain ⟨rf, instrs⟩ := st
    simp only [unpackGo]
    by_cases h : c = CallConv.HHVM ∧ hhvm_is_host_reg reg
    · rw [if_pos h]
      intro i hi
      have := ih _ hi
      simp only [RegFile.SetReg, Bool.false_eq_true, if_neg] at this
      exact Finset.mem_of_mem_erase this
    · rw [if_neg h]
      intro i hi
      have := ih _ hi
      simp only [RegFile.SetReg, Bool.false_eq_true, if_neg] at this
      exact Finset.mem_of_mem_erase (Finset.mem_of_mem_erase this)

theorem unpackGo_instrs {nb : Nat} (c : CallConv)
    (bitIdx : RegKey → Fin nb) (hs : X86Reg → Value) (es : List RegEntry)
    (st : RegFile nb × List Instr) :
    (unpackGo c bitIdx hs es st).2 = st.2 ++
      (es.filter (fun e => !hostEntry c e)).map (fun e => Instr.load e.1) := by
  induction es generalizing st with
  | nil => simp [unpackGo]
  | cons e rest ih =>
    obtain ⟨slot, reg, facet⟩ := e
    obtain ⟨rf, instrs⟩ := st
    simp only [unpackGo]
    by_cases h : c = CallConv.HHVM ∧ hhvm_is_host_reg reg
    · rw [if_pos h, ih]
      have hh : hostEntry c (slot, reg, facet) = true := hostEntry_true.mpr h
      simp [hh]
    · rw [if_neg h, ih]
      have hh : hostEntry c (slot, reg, facet) = false := by
        rw [Bool.eq_false_iff]
        intro hcontra
        exact h (hostEntry_true.mp hcontra)
      simp [hh]

theorem unpackGo_vals_lookup_not_mem {nb : Nat} (c : CallConv)
    (bitIdx : RegKey → Fin nb) (hs : X86Reg → Value) (es : List RegEntry)
    (st : RegFile nb × List Instr) (k : RegKey)
    (hk : k ∉ es.map (fun e => e.2)) :
    alookup k (unpackGo c bitIdx hs es st).1.vals = alookup k st.1.vals := by
  induction es generalizing st with
  | nil => rfl
  | cons e rest ih =>
    obtain ⟨slot, reg, facet⟩ := e
    obtain ⟨rf, instrs⟩ := st
    simp only [List.map_cons, List.mem_cons] at hk
    push_neg at hk
    have hne : (reg, facet) ≠ k := fun h => hk.1 h.symm
    simp only [unpackGo]
    by_cases h : c = CallConv.HHVM ∧ hhvm_is_host_reg reg
    · rw [if_pos h, ih _ hk.2]
      simp [RegFile.SetReg, alookup_astore, if_neg hne]
    · rw [if_neg h, ih _ hk.2]
      simp [RegFile.SetReg, alookup_astore, if_neg hne]

theorem unpackGo_vals_lookup_mem {nb : Nat} (c : CallConv)
    (bitIdx : RegKey → Fin nb) (hs : X86Reg → Value) (es : List RegEntry)
    (st : RegFile nb × List Instr) (e : RegEntry) (he : e ∈ es)
    (hnd : (es.map (fun f => f.2)).Nodup) :
    alookup e.2 (unpackGo c bitIdx hs es st).1.vals =
      some (if hostEntry c e then hs e.2.1 else Value.load e.1) := by
  induction es generalizing st with
  | nil => cases he
  | cons f rest ih =>
    obtain ⟨slot, reg, facet⟩ := f
    obtain ⟨rf, instrs⟩ := st
    simp only [List.map_cons, List.nodup_cons] at hnd
    rcases List.mem_cons.mp he with heq | he'
    · subst heq
      simp only [unpackGo]
      have hrest : ((slot, reg, facet) : RegEntry).2 ∉
          rest.map (fun f => f.2) := hnd.1
      by_cases h : c = CallConv.HHVM ∧ hhvm_is_host_reg reg
      · rw [if_pos h,
          unpackGo_vals_lookup_not_mem c bitIdx hs rest _ _ hrest]
        have hh : hostEntry c ((slot, reg, facet) : RegEntry) = true :=
          hostEntry_true.mpr h
        simp [RegFile.SetReg, alookup_astore, hh]
      · rw [if_neg h,
          unpackGo_vals_lookup_not_mem c bitIdx hs rest _ _ hrest]
        have hh : hostEntry c ((slot, reg, facet) : RegEntry) = false := by
          rw [Bool.eq_false_iff]
          intro hcontra
          exact h (hostEntry_true.mp hcontra)
        simp [RegFile.SetReg, alookup_astore, hh]
    · simp only [unpackGo]
      by_cases h : c = CallConv.HHVM ∧ hhvm_is_host_reg reg
      · rw [if_pos h, ih _ he' hnd.2]
      · rw [if_neg h, ih _ he' hnd.2]

theorem unpackGo_vals_isSome {nb : Nat} (c : CallConv)
    (bitIdx : RegKey → Fin nb) (hs : X86Reg → Value) (es : List RegEntry)
    (st : RegFile nb × List Instr) (k : RegKey) :
    (alookup k (unpackGo c bitIdx hs es st).1.vals).isSome ↔
      k ∈ es.map (fun e => e.2) ∨ (alookup k st.1.vals).isSome := by
  induction es generalizing st with
  | nil => simp [unpackGo]
  | cons f rest ih =>
    obtain ⟨slot, reg, facet⟩ := f
    obtain ⟨rf, instrs⟩ := st
    simp only [unpackGo, List.map_cons, List.mem_cons]
    by_cases h : c = CallConv.HHVM ∧ hhvm_is_host_reg reg
    · rw [if_pos h, ih]
      simp only [RegFile.SetReg, alookup_astore]
      by_cases hk : (reg, facet) = k
      · simp [hk]
      · have hkn : ¬ k = (reg, facet) := fun hcontra => hk hcontra.symm
        simp only [if_neg hk, hkn, false_or]
    · rw [if_neg h, ih]
      simp only [RegFile.SetReg, alookup_astore]
      by_cases hk : (reg, facet) = k
      · simp [hk]
      · have hkn : ¬ k = (reg, facet) := fun hcontra => hk hcontra.symm
        simp only [if_neg hk, hkn, false_or]

/-- **C4**: after `Unpack` the register file is exactly the registry's
entries: no dirty bits remain, a key is present iff it is a registry
key, host-mapped registers under HOST_REGISTER_ABI carry
`hostSource(register)` while all others carry the load from their
slot, and one load is emitted per non-host entry in registry order. -/
theorem unpack_behaviour {nb : Nat} (cconv : CallConv)
    (registry : List RegEntry) (bitIdx : RegKey → Fin nb) (rf : RegFile nb)
    (hostSource : X86Reg → Value)
    (hnd : (registry.map (fun e => e.2)).Nodup) :
    let res := Unpack cconv registry bitIdx rf hostSource
    res.1.dirty = ∅ ∧
    (∀ k : RegKey, (alookup k res.1.vals).isSome ↔
      k ∈ registry.map (fun e => e.2)) ∧
    (∀ e ∈ registry, res.1.GetReg e.2 =
      if hostEntry cconv e then hostSource e.2.1 else Value.load e.1) ∧
    res.2 = (registry.filter (fun e => !hostEntry cconv e)).map
      (fun e => Instr.load e.1) := by
  intro res
  have hres : res = unpackGo cconv bitIdx hostSource registry
      (rf.Clear, []) := rfl
  refine ⟨?_, ?_, ?_, ?_⟩
  · have hsub := unpackGo_dirty_subset cconv bitIdx hostSource registry
      (rf.Clear, [])
    rw [← hres] at hsub
    have : (rf.Clear, ([] : List Instr)).1.dirty = ∅ := rfl
    rw [this] at hsub
    exact Finset.subset_empty.mp hsub
  · intro k
    rw [hres, unpackGo_vals_isSome]
    have : alookup k (rf.Clear, ([] : List Instr)).1.vals = none := rfl
    simp [this]
  · intro e he
    rw [hres, RegFile.GetReg,
      unpackGo_vals_lookup_mem cconv bitIdx hostSource registry _ e he hnd]
    rfl
  · rw [hres, unpackGo_instrs]
    rfl

/-- **C10**: the instruction pointer is host-mapped, both mapping
tables send it to index 0 (so under HOST_REGISTER_ABI its value
travels in argument slot 0 and return-aggregate field 0), and
`UnpackParams` restores it from the function's parameter 0. -/
theorem ip_host_slot_zero {nb : Nat} (registry : List RegEntry)
    (bitIdx : RegKey → Fin nb) (rf : RegFile nb) (slot : Nat) (facet : Facet)
    (hmem : (slot, X86Reg.IP, facet) ∈ registry)
    (hnd : (registry.map (fun e => e.2)).Nodup) :
    hhvm_is_host_reg X86Reg.IP = true ∧
    hhvm_arg_index X86Reg.IP = 0 ∧
    hhvm_ret_index X86Reg.IP = 0 ∧
    (CallConv.UnpackParams CallConv.HHVM registry bitIdx rf).1.GetReg
      (X86Reg.IP, facet) = Value.param 0 := by
  refine ⟨by decide, by decide, by decide, ?_⟩
  have h := unpackGo_vals_lookup_mem CallConv.HHVM bitIdx
    (fun reg => Value.param (hhvm_arg_index reg)) registry
    (rf.Clear, []) (slot, X86Reg.IP, facet) hmem hnd
  have hh : hostEntry CallConv.HHVM ((slot, X86Reg.IP, facet) : RegEntry)
      = true := by simp [hostEntry, hhvm_is_host_reg]
  rw [hh] at h
  show ((Unpack CallConv.HHVM registry bitIdx rf
    (fun reg => Value.param (hhvm_arg_index reg))).1.GetReg
      (X86Reg.IP, facet)) = Value.param 0
  rw [RegFile.GetReg]
  rw [show (Unpack CallConv.HHVM registry bitIdx rf
    (fun reg => Value.param (hhvm_arg_index reg))).1
      = (unpackGo CallConv.HHVM bitIdx
          (fun reg => Value.param (hhvm_arg_index reg)) registry
          (rf.Clear, [])).1 from rfl]
  rw [h]
  rfl

/-- **C9**: with `isTailCall` true, `Call` emits the call marked
must-tail, immediately followed by one return — void when the callee
returns void, otherwise returning the call's result — performs no
`Unpack` (the register file is exactly the packed one), and emits no
load or extract instruction at all. -/
theorem call_tail_characterization {nb : Nat} (cconv : CallConv)
    (fn : LLVMFunction) (registry : List RegEntry)
    (bitIdx : RegKey → Fin nb) (bb : Nat) (rf : RegFile nb)
    (fi : FunctionInfo nb) :
    let st := (Pack cconv registry bitIdx bb rf fi).1
    let fi' := (Pack cconv registry bitIdx bb rf fi).2
    let res := CallConv.Call cconv fn registry bitIdx bb rf fi true
    ∃ args : List (Option Value),
      res.instrs = st.instrs ++ [Instr.callInst args true,
        if fn.retTy = LType.voidTy then Instr.retVoid
        else Instr.ret Value.callRes] ∧
      res.rf = st.rf ∧
      res.fi = fi' ∧
      (∀ s : Nat, Instr.load s ∉ res.instrs) ∧
      (∀ f : Nat, Instr.extractValue f ∉ res.instrs) := by
  intro st fi' res
  have hres0 : res.instrs = st.instrs ++
      [Instr.callInst (st.sunk.foldl
        (fun acc rv => acc.set (hhvm_arg_index rv.1) (some rv.2))
        ((List.replicate fn.params.length (none : Option Value)).set
          cconv.CpuStructParamIdx (some Value.sptrRaw))) true] ++
      (if fn.retTy = LType.voidTy then [Instr.retVoid]
       else [Instr.ret Value.callRes]) := rfl
  have main : res.instrs = st.instrs ++
      [Instr.callInst (st.sunk.foldl
        (fun acc rv => acc.set (hhvm_arg_index rv.1) (some rv.2))
        ((List.replicate fn.params.length (none : Option Value)).set
          cconv.CpuStructParamIdx (some Value.sptrRaw))) true,
       if fn.retTy = LType.voidTy then Instr.retVoid
       else Instr.ret Value.callRes] := by
    rw [hres0]
    by_cases hv : fn.retTy = LType.voidTy
    · simp [hv]
    · simp [hv]
  have hpackinstrs : st.instrs =
      (registry.filter (fun e => !hostEntry cconv e)).map
        (fun e => Instr.store e.1 (rf.GetReg e.2)) := by
    have : st = packGo cconv bitIdx registry
        ⟨rf, ⟨rf.dirty, bb, []⟩, [], []⟩ := rfl
    rw [this, packGo_instrs]
    rfl
  refine ⟨_, main, rfl, rfl, ?_, ?_⟩
  · intro s hmem
    rw [main] at hmem
    rcases List.mem_append.mp hmem with hmem1 | hmem2
    · rw [hpackinstrs] at hmem1
      rcases List.mem_map.mp hmem1 with ⟨e, -, hcontra⟩
      exact Instr.noConfusion hcontra
    · rcases List.mem_cons.mp hmem2 with hcontra | hmem3
      · exact Instr.noConfusion hcontra
      · rcases List.mem_cons.mp hmem3 with hcontra | hmem4
        · by_cases hv : fn.retTy = LType.voidTy
          · rw [if_pos hv] at hcontra
            exact Instr.noConfusion hcontra
          · rw [if_neg hv] at hcontra
            exact Instr.noConfusion hcontra
        · cases hmem4
  · intro f hmem
    rw [main] at hmem
    rcases List.mem_append.mp hmem with hmem1 | hmem2
    · rw [hpackinstrs] at hmem1
      rcases List.mem_map.mp hmem1 with ⟨e, -, hcontra⟩
      exact Instr.noConfusion hcontra
    · rcases List.mem_cons.mp hmem2 with hcontra | hmem3
      · exact Instr.noConfusion hcontra
      · rcases List.mem_cons.mp hmem3 with hcontra | hmem4
        · by_cases hv : fn.retTy = LType.voidTy
          · rw [if_pos hv] at hcontra
            exact Instr.noConfusion hcontra
          · rw [if_neg hv] at hcontra
            exact Instr.noConfusion hcontra
        · cases hmem4

/-! ## Lemmas about the dataflow loop -/

theorem mem_foldl_union {nb : Nat} (l : List Nat) (f : Nat → RSet nb)
    (init : RSet nb) (x : Fin nb) :
    x ∈ l.foldl (fun acc p => acc ∪ f p) init ↔
      x ∈ init ∨ ∃ p ∈ l, x ∈ f p := by
  induction l generalizing init with
  | nil => simp
  | cons p rest ih =>
    simp only [List.foldl_cons, ih, Finset.mem_union, List.mem_cons]
    constructor
    · rintro ((h | h) | ⟨q, hq, hx⟩)
      · exact Or.inl h
      · exact Or.inr ⟨p, Or.inl rfl, h⟩
      · exact Or.inr ⟨q, Or.inr hq, hx⟩
    · rintro (h | ⟨q, (rfl | hq), hx⟩)
      · exact Or.inl (Or.inl h)
      · exact Or.inl (Or.inr hx)
      · exact Or.inr ⟨q, hq, hx⟩

theorem mem_preOf {nb : Nat} (g : CFG nb) (m : BBMap nb) (bb : Nat)
    (x : Fin nb) :
    x ∈ preOf g m bb ↔ ∃ p ∈ g.preds bb, x ∈ postOf m p := by
  unfold preOf
  rw [mem_foldl_union]
  simp [postOf]

theorem preOf_congr {nb : Nat} (g : CFG nb) (m m' : BBMap nb) (bb : Nat)
    (h : ∀ p ∈ g.preds bb, postOf m p = postOf m' p) :
    preOf g m bb = preOf g m' bb := by
  ext x
  rw [mem_preOf, mem_preOf]
  constructor
  · rintro ⟨p, hp, hx⟩
    exact ⟨p, hp, h p hp ▸ hx⟩
  · rintro ⟨p, hp, hx⟩
    exact ⟨p, hp, (h p hp).symm ▸ hx⟩

theorem preOf_mono {nb : Nat} (g : CFG nb) (m m' : BBMap nb) (bb : Nat)
    (h : ∀ p, postOf m p ⊆ postOf m' p) :
    preOf g m bb ⊆ preOf g m' bb := by
  intro x hx
  rw [mem_preOf] at hx ⊢
  obtain ⟨p, hp, hxp⟩ := hx
  exact ⟨p, hp, h p hxp⟩

theorem transfer_mono {nb : Nat} (g : CFG nb) (bb : Nat)
    {pre pre' : RSet nb} (h : pre ⊆ pre') :
    transfer g bb pre ⊆ transfer g bb pre' := by
  unfold transfer
  intro x hx
  rcases Finset.mem_union.mp hx with hx | hx
  · exact Finset.mem_union_left _
      (Finset.mem_sdiff.mpr ⟨h (Finset.mem_sdiff.mp hx).1,
        (Finset.mem_sdiff.mp hx).2⟩)
  · exact Finset.mem_union_right _ hx

theorem lookupD_astore {nb : Nat} (m : BBMap nb) (b c : Nat)
    (v : RSet nb × RSet nb) :
    lookupD (astore b v m) c = if b = c then v else lookupD m c := by
  unfold lookupD
  rw [alookup_astore]
  by_cases h : b = c <;> simp [h]

theorem postOf_astore {nb : Nat} (m : BBMap nb) (b c : Nat)
    (v : RSet nb × RSet nb) :
    postOf (astore b v m) c = if b = c then v.2 else postOf m c := by
  unfold postOf
  rw [lookupD_astore]
  by_cases h : b = c <;> simp [h]

/-- Specification of the successor-enqueueing fold. -/
theorem enqueueSuccs_spec {nb : Nat} (cs : List Nat) (s : OPState nb)
    (hnd : s.newQueueVec.Nodup)
    (hsub : s.newQueueVec.toFinset ⊆ s.queue) :
    (enqueueSuccs cs s).bbMap = s.bbMap ∧
    (enqueueSuccs cs s).queue = s.queue ∪ cs.toFinset ∧
    (enqueueSuccs cs s).newQueueVec.Nodup ∧
    (enqueueSuccs cs s).newQueueVec.toFinset
      = s.newQueueVec.toFinset ∪ (cs.toFinset \ s.queue) ∧
    (enqueueSuccs cs s).newQueueVec.length
      ≤ s.newQueueVec.length + cs.length ∧
    (enqueueSuccs cs s).newQueueVec.toFinset ⊆ (enqueueSuccs cs s).queue := by
  induction cs generalizing s with
  | nil =>
    refine ⟨rfl, by simp [enqueueSuccs], hnd, by simp [enqueueSuccs], by
      simp [enqueueSuccs], by simpa [enqueueSuccs] using hsub⟩
  | cons c rest ih =>
    by_cases hc : c ∈ s.queue
    · have hstep : enqueueSuccs (c :: rest) s = enqueueSuccs rest s := by
        simp [enqueueSuccs, hc]
      obtain ⟨h1, h2, h3, h4, h5, h6⟩ := ih s hnd hsub
      rw [hstep]
      refine ⟨h1, ?_, h3, ?_, le_trans h5 (by simp), h6⟩
      · rw [h2]
        ext x
        simp only [Finset.mem_union, List.toFinset_cons, Finset.mem_insert]
        constructor
        · rintro (h | h)
          · exact Or.inl h
          · exact Or.inr (Or.inr h)
        · rintro (h | (rfl | h))
          · exact Or.inl h
          · exact Or.inl hc
          · exact Or.inr h
      · rw [h4]
        congr 1
        ext x
        simp only [List.toFinset_cons, Finset.mem_sdiff, Finset.mem_insert]
        constructor
        · rintro ⟨hx, hq⟩
          exact ⟨Or.inr hx, hq⟩
        · rintro ⟨(rfl | hx), hq⟩
          · exact absurd hc hq
          · exact ⟨hx, hq⟩
    · have hstep : enqueueSuccs (c :: rest) s =
          enqueueSuccs rest
            (⟨s.bbMap, insert c s.queue, s.newQueueVec ++ [c]⟩ : OPState nb) := by
        simp [enqueueSuccs, hc]
      have hnd' : (s.newQueueVec ++ [c]).Nodup := by
        rw [List.nodup_append]
        refine ⟨hnd, List.nodup_singleton c, ?_⟩
        intro a ha hb
        rw [List.mem_singleton] at hb
        subst hb
        exact hc (hsub (List.mem_toFinset.mpr ha))
      have hsub' : (s.newQueueVec ++ [c]).toFinset ⊆ insert c s.queue := by
        intro a ha
        rw [List.mem_toFinset, List.mem_append] at ha
        rcases ha with ha | ha
        · exact Finset.mem_insert_of_mem (hsub (List.mem_toFinset.mpr ha))
        · rw [List.mem_singleton] at ha
          subst ha
          exact Finset.mem_insert_self _ _
      obtain ⟨h1, h2, h3, h4, h5, h6⟩ :=
        ih (⟨s.bbMap, insert c s.queue, s.newQueueVec ++ [c]⟩ : OPState nb)
          hnd' hsub'
      rw [hstep]
      refine ⟨h1, ?_, h3, ?_, ?_, h6⟩
      · rw [h2]
        simp only [List.toFinset_cons]
        ext x
        simp only [Finset.mem_union, Finset.mem_insert]
        tauto
      · rw [h4]
        ext x
        simp only [List.toFinset_append, List.toFinset_cons,
          List.toFinset_nil, Finset.mem_union, Finset.mem_insert,
          Finset.mem_sdiff, Finset.not_mem_empty, or_false, not_or]
        constructor
        · rintro ((hx | hxc) | ⟨hx, hq⟩)
          · exact Or.inl hx
          · refine Or.inr ⟨Or.inl hxc, ?_⟩
            rw [hxc]
            exact hc
          · exact Or.inr ⟨Or.inr hx, hq.2⟩
        · rintro (hx | ⟨(hxc | hx), hq⟩)
          · exact Or.inl (Or.inl hx)
          · exact Or.inl (Or.inr hxc)
          · by_cases hxc : x = c
            · exact Or.inl (Or.inr hxc)
            · exact Or.inr ⟨hx, hxc, hq⟩
      · calc (enqueueSuccs rest _).newQueueVec.length
            ≤ (s.newQueueVec ++ [c]).length + rest.length := h5
          _ = s.newQueueVec.length + (c :: rest).length := by
              simp [List.length_append]
              omega

theorem processBlock_of_none {nb : Nat} (g : CFG nb) (s : OPState nb)
    (bb : Nat) (heq : alookup bb s.bbMap = none) :
    processBlock g s bb = enqueueSuccs (g.succs bb)
      ⟨astore bb (preOf g s.bbMap bb,
          transfer g bb (preOf g s.bbMap bb)) s.bbMap,
       s.queue.erase bb, s.newQueueVec⟩ := by
  simp only [processBlock]
  rw [heq]
  rfl

theorem processBlock_of_some_ne {nb : Nat} (g : CFG nb) (s : OPState nb)
    (bb : Nat) (pr₀ po₀ : RSet nb)
    (heq : alookup bb s.bbMap = some (pr₀, po₀))
    (hne : po₀ ≠ transfer g bb (preOf g s.bbMap bb)) :
    processBlock g s bb = enqueueSuccs (g.succs bb)
      ⟨astore bb (preOf g s.bbMap bb,
          transfer g bb (preOf g s.bbMap bb)) s.bbMap,
       s.queue.erase bb, s.newQueueVec⟩ := by
  simp only [processBlock]
  rw [heq]
  simp [hne]

theorem processBlock_of_some_eq {nb : Nat} (g : CFG nb) (s : OPState nb)
    (bb : Nat) (pr₀ po₀ : RSet nb)
    (heq : alookup bb s.bbMap = some (pr₀, po₀))
    (hpo : po₀ = transfer g bb (preOf g s.bbMap bb)) :
    processBlock g s bb =
      ⟨astore bb (preOf g s.bbMap bb,
          transfer g bb (preOf g s.bbMap bb)) s.bbMap,
       s.queue.erase bb, s.newQueueVec⟩ := by
  simp only [processBlock]
  rw [heq]
  simp [hpo]

theorem postOf_of_lookup {nb : Nat} {m : BBMap nb} {b : Nat}
    {pr po : RSet nb} (h : alookup b m = some (pr, po)) :
    postOf m b = po := by
  unfold postOf lookupD
  rw [h]
  rfl

theorem erase_queue_eq {nb : Nat} {g : CFG nb} {s : OPState nb} {bb : Nat}
    {rest : List Nat} (hInv : DFInv g s (bb :: rest)) :
    s.queue.erase bb = rest.toFinset ∪ s.newQueueVec.toFinset := by
  have hbbrest : bb ∉ rest := (List.nodup_cons.mp hInv.vec_nodup).1
  have hbbnv : bb ∉ s.newQueueVec := hInv.disj bb (List.mem_cons_self _ _)
  rw [hInv.queue_eq]
  ext x
  simp only [Finset.mem_erase, Finset.mem_union, List.toFinset_cons,
    Finset.mem_insert, List.mem_toFinset]
  constructor
  · rintro ⟨hne, (rfl | hx) | hx⟩
    · exact absurd rfl hne
    · exact Or.inl hx
    · exact Or.inr hx
  · rintro (hx | hx)
    · exact ⟨fun h => hbbrest (h ▸ hx), Or.inl (Or.inr hx)⟩
    · exact ⟨fun h => hbbnv (h ▸ hx), Or.inr hx⟩

/-- Invariant preservation for a processing step that re-enqueues the
successors (first visit, or changed post set). -/
theorem processBlock_inv_enqueue {nb : Nat} (g : CFG nb) (s : OPState nb)
    (bb : Nat) (rest : List Nat) (hwf : CFGWellFormed g)
    (hInv : DFInv g s (bb :: rest)) :
    DFInv g (enqueueSuccs (g.succs bb)
      ⟨astore bb (preOf g s.bbMap bb,
          transfer g bb (preOf g s.bbMap bb)) s.bbMap,
       s.queue.erase bb, s.newQueueVec⟩) rest := by
  have hbbq : bb ∈ s.queue := by
    rw [hInv.queue_eq]
    simp
  have hbbB : bb ∈ g.blocks := hInv.queue_blocks bb hbbq
  have hlk : ∀ c, alookup c (astore bb (preOf g s.bbMap bb,
      transfer g bb (preOf g s.bbMap bb)) s.bbMap) =
      if bb = c then some (preOf g s.bbMap bb,
        transfer g bb (preOf g s.bbMap bb)) else alookup c s.bbMap :=
    fun c => alookup_astore _ _ _ _
  have hpostat : postOf (astore bb (preOf g s.bbMap bb,
      transfer g bb (preOf g s.bbMap bb)) s.bbMap) bb =
      transfer g bb (preOf g s.bbMap bb) := by
    rw [postOf_astore]
    simp
  have hpost' : ∀ c, c ≠ bb → postOf (astore bb (preOf g s.bbMap bb,
      transfer g bb (preOf g s.bbMap bb)) s.bbMap) c = postOf s.bbMap c := by
    intro c hc
    rw [postOf_astore]
    rw [if_neg (fun h => hc h.symm)]
  have hgrow : ∀ c, postOf s.bbMap c ⊆ postOf (astore bb
      (preOf g s.bbMap bb, transfer g bb (preOf g s.bbMap bb)) s.bbMap) c := by
    intro c
    by_cases hc : c = bb
    · subst hc
      rw [hpostat]
      exact hInv.mono c
    · rw [hpost' c hc]
  have hpremono : ∀ c, preOf g s.bbMap c ⊆ preOf g (astore bb
      (preOf g s.bbMap bb, transfer g bb (preOf g s.bbMap bb)) s.bbMap) c :=
    fun c => preOf_mono g _ _ c hgrow
  have herase := erase_queue_eq hInv
  have hsubnv : s.newQueueVec.toFinset ⊆ s.queue.erase bb := by
    rw [herase]
    exact Finset.subset_union_right
  obtain ⟨E1, E2, E3, E4, E5, E6⟩ := enqueueSuccs_spec (g.succs bb)
    ⟨astore bb (preOf g s.bbMap bb,
        transfer g bb (preOf g s.bbMap bb)) s.bbMap,
     s.queue.erase bb, s.newQueueVec⟩ hInv.nvec_nodup hsubnv
  constructor
  · -- keys_blocks
    intro c hc
    rw [E1] at hc
    simp only at hc
    rw [hlk c] at hc
    by_cases hceq : bb = c
    · exact hceq ▸ hbbB
    · rw [if_neg hceq] at hc
      exact hInv.keys_blocks c hc
  · -- queue_blocks
    intro c hc
    rw [E2] at hc
    simp only at hc
    rcases Finset.mem_union.mp hc with hc | hc
    · exact hInv.queue_blocks c (Finset.mem_of_mem_erase hc)
    · exact hwf.succ_mem bb hbbB c (List.mem_toFinset.mp hc)
  · -- queue_eq
    rw [E2, E4]
    simp only
    rw [herase]
    ext x
    simp only [Finset.mem_union, Finset.mem_sdiff]
    by_cases hx1 : x ∈ rest.toFinset <;>
      by_cases hx2 : x ∈ s.newQueueVec.toFinset <;>
      by_cases hx3 : x ∈ (g.succs bb).toFinset <;>
      simp [hx1, hx2, hx3]
  · -- vec_nodup
    exact (List.nodup_cons.mp hInv.vec_nodup).2
  · -- nvec_nodup
    exact E3
  · -- disj
    intro b hb hbnv
    have hbt : b ∈ (enqueueSuccs (g.succs bb)
        ⟨astore bb (preOf g s.bbMap bb,
            transfer g bb (preOf g s.bbMap bb)) s.bbMap,
         s.queue.erase bb, s.newQueueVec⟩).newQueueVec.toFinset :=
      List.mem_toFinset.mpr hbnv
    rw [E4] at hbt
    simp only at hbt
    rcases Finset.mem_union.mp hbt with hbt | hbt
    · exact hInv.disj b (List.mem_cons_of_mem _ hb) (List.mem_toFinset.mp hbt)
    · have : b ∈ s.queue.erase bb := by
        rw [herase]
        exact Finset.mem_union_left _ (List.mem_toFinset.mpr hb)
      exact (Finset.mem_sdiff.mp hbt).2 this
  · -- mono
    intro c
    rw [E1]
    simp only
    by_cases hc : c = bb
    · subst hc
      rw [hpostat]
      exact transfer_mono g c (hpremono c)
    · rw [hpost' c hc]
      exact (hInv.mono c).trans (transfer_mono g c (hpremono c))
  · -- pair
    intro c pr po hc
    rw [E1] at hc
    simp only at hc
    rw [hlk c] at hc
    by_cases hceq : bb = c
    · rw [if_pos hceq] at hc
      obtain ⟨h1, h2⟩ := Prod.mk.injEq .. ▸ Option.some.injEq .. ▸ hc
      subst hceq
      rw [← h1, ← h2]
    · rw [if_neg hceq] at hc
      exact hInv.pair c pr po hc
  · -- current
    intro c pr po hc hcq
    rw [E1] at hc
    simp only at hc
    rw [E2] at hcq
    simp only at hcq
    rw [hlk c] at hc
    have hcqe : c ∉ s.queue.erase bb :=
      fun h => hcq (Finset.mem_union_left _ h)
    have hcsucc : c ∉ g.succs bb :=
      fun h => hcq (Finset.mem_union_right _ (List.mem_toFinset.mpr h))
    by_cases hceq : bb = c
    · subst hceq
      rw [if_pos rfl] at hc
      obtain ⟨h1, h2⟩ := Prod.mk.injEq .. ▸ Option.some.injEq .. ▸ hc
      rw [E1]
      simp only
      rw [← h1]
      by_cases hpp : postOf (astore bb (preOf g s.bbMap bb,
          transfer g bb (preOf g s.bbMap bb)) s.bbMap) bb
          = postOf s.bbMap bb
      · exact preOf_congr g _ _ bb (fun p _ => by
          by_cases hp : p = bb
          · rw [hp, hpp]
          · rw [hpost' p hp])
      · have hnotpred : bb ∉ g.preds bb := by
          intro hcontra
          exact hcsucc ((hwf.consistent bb hbbB bb hbbB).mp hcontra)
        exact preOf_congr g _ _ bb (fun p hp => by
          have hpne : p ≠ bb := fun h => hnotpred (h ▸ hp)
          rw [hpost' p hpne])
    · rw [if_neg hceq] at hc
      have hcnq : c ∉ s.queue := by
        intro hcontra
        exact hcqe (Finset.mem_erase.mpr ⟨fun h => hceq h.symm, hcontra⟩)
      have hold := hInv.current c pr po hc hcnq
      rw [E1]
      simp only
      rw [hold]
      by_cases hpp : postOf (astore bb (preOf g s.bbMap bb,
          transfer g bb (preOf g s.bbMap bb)) s.bbMap) bb
          = postOf s.bbMap bb
      · exact preOf_congr g _ _ c (fun p _ => by
          by_cases hp : p = bb
          · rw [hp, hpp]
          · rw [hpost' p hp])
      · have hcB : c ∈ g.blocks := hInv.keys_blocks c (by rw [hc]; rfl)
        have hnotpred : bb ∉ g.preds c := by
          intro hcontra
          exact hcsucc ((hwf.consistent bb hbbB c hcB).mp hcontra)
        exact preOf_congr g _ _ c (fun p hp => by
          have hpne : p ≠ bb := fun h => hnotpred (h ▸ hp)
          rw [hpost' p hpne])
  · -- closed
    intro c hc d hd
    rw [E1] at hc ⊢
    rw [E2]
    simp only at hc ⊢
    by_cases hceq : bb = c
    · subst hceq
      exact Or.inr (Finset.mem_union_right _ (List.mem_toFinset.mpr hd))
    · rw [hlk c, if_neg hceq] at hc
      rcases hInv.closed c hc d hd with hsome | hq
      · left
        rw [hlk d]
        by_cases hdeq : bb = d
        · rw [if_pos hdeq]
          rfl
        · rw [if_neg hdeq]
          exact hsome
      · by_cases hdeq : bb = d
        · left
          rw [hlk d, if_pos hdeq]
          rfl
        · right
          exact Finset.mem_union_left _
            (Finset.mem_erase.mpr ⟨fun h => hdeq h.symm, hq⟩)
  · -- entry_in
    rw [E1, E2]
    simp only
    rcases hInv.entry_in with hsome | hq
    · left
      rw [hlk g.entry]
      by_cases heq : bb = g.entry
      · rw [if_pos heq]
        rfl
      · rw [if_neg heq]
        exact hsome
    · by_cases heq : bb = g.entry
      · left
        rw [hlk g.entry, if_pos heq]
        rfl
      · right
        exact Finset.mem_union_left _
          (Finset.mem_erase.mpr ⟨fun h => heq h.symm, hq⟩)

/-- Invariant preservation for a processing step whose post set did
not change (no successors enqueued). -/
theorem processBlock_inv_nochange {nb : Nat} (g : CFG nb) (s : OPState nb)
    (bb : Nat) (rest : List Nat) (pr₀ po₀ : RSet nb)
    (hInv : DFInv g s (bb :: rest))
    (heq : alookup bb s.bbMap = some (pr₀, po₀))
    (hpo : po₀ = transfer g bb (preOf g s.bbMap bb)) :
    DFInv g (⟨astore bb (preOf g s.bbMap bb,
        transfer g bb (preOf g s.bbMap bb)) s.bbMap,
      s.queue.erase bb, s.newQueueVec⟩ : OPState nb) rest := by
  have hbbq : bb ∈ s.queue := by
    rw [hInv.queue_eq]
    simp
  have hbbB : bb ∈ g.blocks := hInv.queue_blocks bb hbbq
  have hlk : ∀ c, alookup c (astore bb (preOf g s.bbMap bb,
      transfer g bb (preOf g s.bbMap bb)) s.bbMap) =
      if bb = c then some (preOf g s.bbMap bb,
        transfer g bb (preOf g s.bbMap bb)) else alookup c s.bbMap :=
    fun c => alookup_astore _ _ _ _
  have hpostall : ∀ c, postOf (astore bb (preOf g s.bbMap bb,
      transfer g bb (preOf g s.bbMap bb)) s.bbMap) c = postOf s.bbMap c := by
    intro c
    rw [postOf_astore]
    by_cases hc : bb = c
    · subst hc
      rw [if_pos rfl, postOf_of_lookup heq, hpo]
    · rw [if_neg hc]
  have hpreall : ∀ c, preOf g (astore bb (preOf g s.bbMap bb,
      transfer g bb (preOf g s.bbMap bb)) s.bbMap) c = preOf g s.bbMap c :=
    fun c => (preOf_congr g s.bbMap _ c (fun p _ => (hpostall p).symm)).symm
  have herase := erase_queue_eq hInv
  constructor
  · -- keys_blocks
    intro c hc
    simp only at hc
    rw [hlk c] at hc
    by_cases hceq : bb = c
    · exact hceq ▸ hbbB
    · rw [if_neg hceq] at hc
      exact hInv.keys_blocks c hc
  · -- queue_blocks
    intro c hc
    exact hInv.queue_blocks c (Finset.mem_of_mem_erase hc)
  · -- queue_eq
    exact herase
  · -- vec_nodup
    exact (List.nodup_cons.mp hInv.vec_nodup).2
  · -- nvec_nodup
    exact hInv.nvec_nodup
  · -- disj
    intro b hb
    exact hInv.disj b (List.mem_cons_of_mem _ hb)
  · -- mono
    intro c
    simp only
    rw [hpostall c, hpreall c]
    exact hInv.mono c
  · -- pair
    intro c pr po hc
    simp only at hc
    rw [hlk c] at hc
    by_cases hceq : bb = c
    · rw [if_pos hceq] at hc
      obtain ⟨h1, h2⟩ := Prod.mk.injEq .. ▸ Option.some.injEq .. ▸ hc
      subst hceq
      rw [← h1, ← h2]
    · rw [if_neg hceq] at hc
      exact hInv.pair c pr po hc
  · -- current
    intro c pr po hc hcq
    simp only at hc hcq ⊢
    rw [hlk c] at hc
    rw [hpreall c]
    by_cases hceq : bb = c
    · subst hceq
      rw [if_pos rfl] at hc
      obtain ⟨h1, h2⟩ := Prod.mk.injEq .. ▸ Option.some.injEq .. ▸ hc
      rw [← h1]
    · rw [if_neg hceq] at hc
      have hcnq : c ∉ s.queue := by
        intro hcontra
        exact hcq (Finset.mem_erase.mpr ⟨fun h => hceq h.symm, hcontra⟩)
      exact hInv.current c pr po hc hcnq
  · -- closed
    intro c hc d hd
    simp only at hc ⊢
    by_cases hceq : bb = c
    · subst hceq
      rcases hInv.closed bb (by rw [heq]; rfl) d hd with hsome | hq
      · left
        rw [hlk d]
        by_cases hdeq : bb = d
        · rw [if_pos hdeq]
          rfl
        · rw [if_neg hdeq]
          exact hsome
      · by_cases hdeq : bb = d
        · left
          rw [hlk d, if_pos hdeq]
          rfl
        · right
          exact Finset.mem_erase.mpr ⟨fun h => hdeq h.symm, hq⟩
    · rw [hlk c, if_neg hceq] at hc
      rcases hInv.closed c hc d hd with hsome | hq
      · left
        rw [hlk d]
        by_cases hdeq : bb = d
        · rw [if_pos hdeq]
          rfl
        · rw [if_neg hdeq]
          exact hsome
      · by_cases hdeq : bb = d
        · left
          rw [hlk d, if_pos hdeq]
          rfl
        · right
          exact Finset.mem_erase.mpr ⟨fun h => hdeq h.symm, hq⟩
  · -- entry_in
    simp only
    rcases hInv.entry_in with hsome | hq
    · left
      rw [hlk g.entry]
      by_cases heq2 : bb = g.entry
      · rw [if_pos heq2]
        rfl
      · rw [if_neg heq2]
        exact hsome
    · by_cases heq2 : bb = g.entry
      · left
        rw [hlk g.entry, if_pos heq2]
        rfl
      · right
        exact Finset.mem_erase.mpr ⟨fun h => heq2 h.symm, hq⟩

theorem measure_arith (A U U' Q Q' n n' k : Nat) (hA : 2 ≤ A)
    (hU : U' + 1 ≤ U) (hQ : Q' + 1 ≤ Q + k) (hn : n' ≤ n + k)
    (hk : k + 2 ≤ A) :
    A * (A * U' + Q') + n' < A * (A * U + Q) + n := by
  have h1 : A * U' + A ≤ A * U := by
    calc A * U' + A = A * (U' + 1) := by ring
      _ ≤ A * U := Nat.mul_le_mul_left A hU
  have h2 : A * (A * U' + Q') + A ≤ A * (A * U + Q) := by
    calc A * (A * U' + Q') + A = A * (A * U' + Q' + 1) := by ring
      _ ≤ A * (A * U' + Q + k) := Nat.mul_le_mul_left A (by omega)
      _ ≤ A * (A * U' + Q + A) := Nat.mul_le_mul_left A (by omega)
      _ = A * ((A * U' + A) + Q) := by ring
      _ ≤ A * (A * U + Q) := Nat.mul_le_mul_left A (by omega)
  calc A * (A * U' + Q') + n' + 1
      ≤ A * (A * U' + Q') + n + k + 1 := by omega
    _ ≤ A * (A * U' + Q') + n + A := by omega
    _ = (A * (A * U' + Q') + A) + n := by ring
    _ ≤ A * (A * U + Q) + n := by omega

theorem unvisited_astore_some {nb : Nat} (g : CFG nb) (m : BBMap nb)
    (bb : Nat) (v : RSet nb × RSet nb) (pq : RSet nb × RSet nb)
    (heq : alookup bb m = some pq) :
    unvisited g (astore bb v m) = unvisited g m := by
  unfold unvisited
  congr 1
  apply Finset.filter_congr
  intro c _
  rw [alookup_astore]
  by_cases hc : bb = c
  · subst hc
    rw [if_pos rfl, heq]
    simp
  · rw [if_neg hc]

theorem unvisited_astore_none {nb : Nat} (g : CFG nb) (m : BBMap nb)
    (bb : Nat) (v : RSet nb × RSet nb) (heq : alookup bb m = none)
    (hbb : bb ∈ g.blocks) :
    unvisited g (astore bb v m) < unvisited g m := by
  unfold unvisited
  apply Finset.card_lt_card
  rw [Finset.ssubset_iff_of_subset]
  · exact ⟨bb, Finset.mem_filter.mpr
      ⟨List.mem_toFinset.mpr hbb, by rw [heq]; rfl⟩,
     fun hcontra => by
      have := (Finset.mem_filter.mp hcontra).2
      rw [alookup_astore, if_pos rfl] at this
      simp at this⟩
  · intro c hc
    obtain ⟨hcb, hcn⟩ := Finset.mem_filter.mp hc
    rw [alookup_astore] at hcn
    by_cases hceq : bb = c
    · rw [if_pos hceq] at hcn
      simp at hcn
    · rw [if_neg hceq] at hcn
      exact Finset.mem_filter.mpr ⟨hcb, hcn⟩

theorem potential_le {nb : Nat} (g : CFG nb) (m m' : BBMap nb)
    (h : ∀ c, postOf m c ⊆ postOf m' c) :
    potential g m' ≤ potential g m := by
  unfold potential
  apply List.sum_le_sum
  intro b _
  have := Finset.card_le_card (h b)
  omega

theorem potential_lt {nb : Nat} (g : CFG nb) (m m' : BBMap nb) (bb : Nat)
    (h : ∀ c, postOf m c ⊆ postOf m' c) (hbb : bb ∈ g.blocks)
    (hne : postOf m bb ≠ postOf m' bb) :
    potential g m' < potential g m := by
  unfold potential
  apply List.sum_lt_sum
  · intro b _
    have := Finset.card_le_card (h b)
    omega
  · refine ⟨bb, hbb, ?_⟩
    have hss : postOf m bb ⊂ postOf m' bb :=
      Finset.ssubset_iff_subset_ne.mpr ⟨h bb, hne⟩
    have hlt := Finset.card_lt_card hss
    have hle : (postOf m' bb).card ≤ nb := by
      have := Finset.card_le_univ (postOf m' bb)
      simpa using this
    omega

theorem potential_congr {nb : Nat} (g : CFG nb) (m m' : BBMap nb)
    (h : ∀ c, postOf m c = postOf m' c) :
    potential g m' = potential g m := by
  unfold potential
  congr 1
  apply List.map_congr_left
  intro b _
  rw [h b]

theorem succs_le_succBound {nb : Nat} (g : CFG nb) (bb : Nat)
    (hbb : bb ∈ g.blocks) :
    (g.succs bb).length + 2 ≤ succBound g := by
  unfold succBound
  have : (g.succs bb).length ∈ g.blocks.map (fun b => (g.succs b).length) :=
    List.mem_map_of_mem _ hbb
  have := List.le_sum_of_mem this
  omega

theorem processBlock_measure {nb : Nat} (g : CFG nb) (s : OPState nb)
    (bb : Nat) (rest : List Nat) (hwf : CFGWellFormed g)
    (hInv : DFInv g s (bb :: rest)) :
    dfMeasure g (processBlock g s bb) rest < dfMeasure g s (bb :: rest) := by
  have hbbq : bb ∈ s.queue := by
    rw [hInv.queue_eq]
    simp
  have hbbB : bb ∈ g.blocks := hInv.queue_blocks bb hbbq
  have hA : 2 ≤ succBound g := by
    unfold succBound
    omega
  have hk := succs_le_succBound g bb hbbB
  have hgrow : ∀ c, postOf s.bbMap c ⊆ postOf (astore bb
      (preOf g s.bbMap bb, transfer g bb (preOf g s.bbMap bb)) s.bbMap) c := by
    intro c
    rw [postOf_astore]
    by_cases hc : bb = c
    · subst hc
      rw [if_pos rfl]
      exact hInv.mono _
    · rw [if_neg hc]
  have hsubnv : s.newQueueVec.toFinset ⊆ s.queue.erase bb := by
    rw [erase_queue_eq hInv]
    exact Finset.subset_union_right
  rcases heq : alookup bb s.bbMap with _ | ⟨pr₀, po₀⟩
  · -- first visit: insertion, successors enqueued
    rw [processBlock_of_none g s bb heq]
    obtain ⟨E1, E2, E3, E4, E5, E6⟩ := enqueueSuccs_spec (g.succs bb)
      ⟨astore bb (preOf g s.bbMap bb,
          transfer g bb (preOf g s.bbMap bb)) s.bbMap,
       s.queue.erase bb, s.newQueueVec⟩ hInv.nvec_nodup hsubnv
    unfold dfMeasure
    rw [E1]
    simp only at E5 ⊢
    have hu := unvisited_astore_none g s.bbMap bb
      (preOf g s.bbMap bb, transfer g bb (preOf g s.bbMap bb)) heq hbbB
    have hp := potential_le g s.bbMap _ hgrow
    refine measure_arith _ _ _ _ _ _ _ ((g.succs bb).length) hA
      ?_ ?_ ?_ hk
    · omega
    · simp only [List.length_cons] at E5 ⊢
      omega
    · omega
  · by_cases hpo : po₀ = transfer g bb (preOf g s.bbMap bb)
    · -- unchanged post: no enqueue
      rw [processBlock_of_some_eq g s bb pr₀ po₀ heq hpo]
      unfold dfMeasure
      simp only
      have hu := unvisited_astore_some g s.bbMap bb
        (preOf g s.bbMap bb, transfer g bb (preOf g s.bbMap bb))
        (pr₀, po₀) heq
      have hp := potential_congr g s.bbMap
        (astore bb (preOf g s.bbMap bb,
          transfer g bb (preOf g s.bbMap bb)) s.bbMap)
        (fun c => by
          rw [postOf_astore]
          by_cases hc : bb = c
          · subst hc
            rw [if_pos rfl, postOf_of_lookup heq, hpo]
          · rw [if_neg hc])
      rw [hu, hp]
      have hpos : 0 < succBound g := by omega
      apply Nat.add_lt_add_right
      apply mul_lt_mul_of_pos_left _ hpos
      apply Nat.add_lt_add_left
      simp [List.length_cons]
    · -- changed post: successors enqueued
      rw [processBlock_of_some_ne g s bb pr₀ po₀ heq hpo]
      obtain ⟨E1, E2, E3, E4, E5, E6⟩ := enqueueSuccs_spec (g.succs bb)
        ⟨astore bb (preOf g s.bbMap bb,
            transfer g bb (preOf g s.bbMap bb)) s.bbMap,
         s.queue.erase bb, s.newQueueVec⟩ hInv.nvec_nodup hsubnv
      unfold dfMeasure
      rw [E1]
      simp only at E5 ⊢
      have hu := unvisited_astore_some g s.bbMap bb
        (preOf g s.bbMap bb, transfer g bb (preOf g s.bbMap bb))
        (pr₀, po₀) heq
      have hpne : postOf s.bbMap bb ≠ postOf (astore bb
          (preOf g s.bbMap bb,
            transfer g bb (preOf g s.bbMap bb)) s.bbMap) bb := by
        rw [postOf_of_lookup heq, postOf_astore, if_pos rfl]
        exact hpo
      have hp := potential_lt g s.bbMap _ bb hgrow hbbB hpne
      refine measure_arith _ _ _ _ _ _ _ ((g.succs bb).length) hA
        ?_ ?_ ?_ hk
      · omega
      · simp only [List.length_cons] at E5 ⊢
        omega
      · omega

theorem processBlock_inv {nb : Nat} (g : CFG nb) (s : OPState nb) (bb : Nat)
    (rest : List Nat) (hwf : CFGWellFormed g) (hInv : DFInv g s (bb :: rest)) :
    DFInv g (processBlock g s bb) rest := by
  rcases heq : alookup bb s.bbMap with _ | ⟨pr₀, po₀⟩
  · rw [processBlock_of_none g s bb heq]
    exact processBlock_inv_enqueue g s bb rest hwf hInv
  · by_cases hpo : po₀ = transfer g bb (preOf g s.bbMap bb)
    · rw [processBlock_of_some_eq g s bb pr₀ po₀ heq hpo]
      exact processBlock_inv_nochange g s bb rest pr₀ po₀ hInv heq hpo
    · rw [processBlock_of_some_ne g s bb pr₀ po₀ heq hpo]
      exact processBlock_inv_enqueue g s bb rest hwf hInv

theorem processVec_spec {nb : Nat} (g : CFG nb) (hwf : CFGWellFormed g) :
    ∀ (vec : List Nat) (s : OPState nb), DFInv g s vec →
      DFInv g (processVec g s vec) [] ∧
      dfMeasure g (processVec g s vec) [] ≤ dfMeasure g s vec ∧
      (vec ≠ [] → dfMeasure g (processVec g s vec) [] < dfMeasure g s vec) := by
  intro vec
  induction vec with
  | nil =>
    intro s hInv
    exact ⟨hInv, le_refl _, fun h => absurd rfl h⟩
  | cons bb rest ih =>
    intro s hInv
    have hstep := processBlock_inv g s bb rest hwf hInv
    have hmeas := processBlock_measure g s bb rest hwf hInv
    obtain ⟨ih1, ih2, _⟩ := ih (processBlock g s bb) hstep
    refine ⟨ih1, ?_, ?_⟩
    · show dfMeasure g (processVec g (processBlock g s bb) rest) [] ≤ _
      omega
    · intro _
      show dfMeasure g (processVec g (processBlock g s bb) rest) [] < _
      omega

/-- Moving to the next round preserves the invariant. -/
theorem DFInv_roundswap {nb : Nat} (g : CFG nb) (s : OPState nb)
    (hInv : DFInv g s []) :
    DFInv g (⟨s.bbMap, s.queue, []⟩ : OPState nb) s.newQueueVec := by
  obtain ⟨kb, qb, qe, vnd, nnd, dj, mono, pair, cur, cl, ei⟩ := hInv
  constructor
  · exact kb
  · exact qb
  · simp only
    rw [qe]
    simp
  · exact nnd
  · exact List.nodup_nil
  · intro b _ hb
    cases hb
  · exact mono
  · exact pair
  · exact cur
  · exact cl
  · exact ei

/-- Termination and quiescence of the worklist loop: with fuel beyond
the measure, the loop returns a map satisfying the fixed-point
properties. -/
theorem dfLoop_spec {nb : Nat} (g : CFG nb) (hwf : CFGWellFormed g) :
    ∀ (μ : Nat) (s : OPState nb) (vec : List Nat),
      s.newQueueVec = [] → DFInv g s vec → dfMeasure g s vec < μ →
      ∃ m, dfLoop g μ s vec = some m ∧
        (∀ b pr po, alookup b m = some (pr, po) →
          po = transfer g b pr ∧ pr = preOf g m b) ∧
        (∀ b, (alookup b m).isSome → ∀ c ∈ g.succs b,
          (alookup c m).isSome) ∧
        (alookup g.entry m).isSome := by
  intro μ
  induction μ with
  | zero =>
    intro s vec _ _ hm
    omega
  | succ μ ih =>
    intro s vec hnv hInv hm
    by_cases hq : s.queue = ∅
    · refine ⟨s.bbMap, ?_, ?_, ?_, ?_⟩
      · unfold dfLoop
        rw [if_pos hq]
      · intro b pr po hb
        refine ⟨hInv.pair b pr po hb, ?_⟩
        exact hInv.current b pr po hb (by rw [hq]; exact Finset.not_mem_empty b)
      · intro b hb c hc
        rcases hInv.closed b hb c hc with hsome | hcq
        · exact hsome
        · rw [hq] at hcq
          exact absurd hcq (Finset.not_mem_empty c)
      · rcases hInv.entry_in with hsome | hcq
        · exact hsome
        · rw [hq] at hcq
          exact absurd hcq (Finset.not_mem_empty g.entry)
    · have hvecne : vec ≠ [] := by
        intro hcontra
        apply hq
        rw [hInv.queue_eq, hcontra, hnv]
        simp
      have hseq : ({ s with newQueueVec := ([] : List Nat) } : OPState nb)
          = s := by
        cases s
        simp only at hnv ⊢
        rw [hnv]
      obtain ⟨hInv', hle, hlt⟩ := processVec_spec g hwf vec s hInv
      have hlt' := hlt hvecne
      have hInv'' := DFInv_roundswap g (processVec g s vec) hInv'
      have hmeas'' : dfMeasure g
          (⟨(processVec g s vec).bbMap, (processVec g s vec).queue, []⟩ :
            OPState nb) (processVec g s vec).newQueueVec < μ := by
        have hcalc : dfMeasure g
            (⟨(processVec g s vec).bbMap, (processVec g s vec).queue, []⟩ :
              OPState nb) (processVec g s vec).newQueueVec ≤
            dfMeasure g (processVec g s vec) [] := by
          unfold dfMeasure
          simp only [List.length_nil, Nat.add_zero, Nat.zero_add]
          omega
        omega
      obtain ⟨m, hm', hprops⟩ := ih
        (⟨(processVec g s vec).bbMap, (processVec g s vec).queue, []⟩ :
          OPState nb) (processVec g s vec).newQueueVec rfl hInv'' hmeas''
      refine ⟨m, ?_, hprops⟩
      show dfLoop g (μ + 1) s vec = some m
      unfold dfLoop
      rw [if_neg hq, hseq]
      exact hm'

/-- The invariant holds in the seeded initial state. -/
theorem DFInv_init {nb : Nat} (g : CFG nb) (hwf : CFGWellFormed g) :
    DFInv g (⟨[], {g.entry}, []⟩ : OPState nb) [g.entry] := by
  constructor
  · intro b hb
    simp [alookup] at hb
  · intro b hb
    simp only [Finset.mem_singleton] at hb
    exact hb ▸ hwf.entry_mem
  · simp
  · exact List.nodup_singleton _
  · exact List.nodup_nil
  · intro b _ hb
    cases hb
  · intro b
    simp [postOf, lookupD, alookup]
  · intro b pr po hb
    simp [alookup] at hb
  · intro b pr po hb
    simp [alookup] at hb
  · intro b hb
    simp [alookup] at hb
  · right
    simp

/-- **C2**: on every finite CFG whose blocks are all reachable from
the entry, the worklist loop of `OptimizePacks` terminates (some fuel
makes `dfLoop` return), and the returned per-block sets satisfy the
dataflow equations `post = (pre \ cleaned) ∪ dirty` and
`pre = ⋃ post(pred)`; the trivial CFG is covered (the loop still
terminates and the pass does nothing else). -/
theorem optimizeLoop_converges {nb : Nat} (g : CFG nb)
    (hwf : CFGWellFormed g) (hreach : ∀ b ∈ g.blocks, Reachable g b) :
    ∃ fuel m, optimizeLoop g fuel = some m ∧
      ∀ b ∈ g.blocks,
        (alookup b m).isSome ∧
        (lookupD m b).2 = transfer g b (lookupD m b).1 ∧
        (lookupD m b).1 = preOf g m b := by
  obtain ⟨m, hloop, hpairs, hclosed, hentry⟩ := dfLoop_spec g hwf
    (dfMeasure g (⟨[], {g.entry}, []⟩ : OPState nb) [g.entry] + 1)
    (⟨[], {g.entry}, []⟩ : OPState nb) [g.entry] rfl (DFInv_init g hwf)
    (by omega)
  refine ⟨dfMeasure g (⟨[], {g.entry}, []⟩ : OPState nb) [g.entry] + 1,
    m, hloop, ?_⟩
  have hreach_some : ∀ b, Reachable g b → (alookup b m).isSome := by
    intro b hb
    induction hb with
    | entry => exact hentry
    | step hb hc ih => exact hclosed _ ih _ hc
  intro b hb
  have hsome := hreach_some b (hreach b hb)
  obtain ⟨⟨pr, po⟩, hpq⟩ := Option.isSome_iff_exists.mp hsome
  obtain ⟨h1, h2⟩ := hpairs b pr po hpq
  have hlook : lookupD m b = (pr, po) := by
    unfold lookupD
    rw [hpq]
    rfl
  refine ⟨hsome, ?_, ?_⟩
  · rw [hlook, h1]
  · rw [hlook, h2]

/-- **C1**: after the dataflow loop converges, a recorded store of a
pack record is deleted exactly when the bit of its registry entry is
clear in the union of the converged pre set of the record's block and
the record's dirty snapshot; stores whose bit is set are kept. -/
theorem optimizePacks_deletes_iff {nb : Nat} (g : CFG nb)
    (registry : List RegEntry) (bitIdx : RegKey → Fin nb)
    (fi : FunctionInfo nb) (fuel : Nat) (m : BBMap nb)
    (hm : optimizeLoop g fuel = some m)
    (pack : CallConvPack nb) (hp : pack ∈ fi.call_conv_packs)
    (e : RegEntry) (he : e ∈ registry)
    (hnd : (registry.map (fun f => f.1)).Nodup) :
    (pack, packErasedSlots ((lookupD m pack.bb).1 ∪ pack.block_dirty_regs)
        registry bitIdx pack)
      ∈ (OptimizePacks g registry bitIdx fi fuel).getD [] ∧
    (e.1 ∈ packErasedSlots ((lookupD m pack.bb).1 ∪ pack.block_dirty_regs)
        registry bitIdx pack ↔
      (alookup e.1 pack.stores).isSome ∧
        bitIdx e.2 ∉ (lookupD m pack.bb).1 ∪ pack.block_dirty_regs) := by
  constructor
  · unfold OptimizePacks
    rw [hm]
    exact List.mem_map_of_mem _ hp
  · unfold packErasedSlots
    rw [List.mem_filterMap]
    constructor
    · rintro ⟨f, hf, hfe⟩
      by_cases hcond : (alookup f.1 pack.stores).isSome ∧
          bitIdx f.2 ∉ (lookupD m pack.bb).1 ∪ pack.block_dirty_regs
      · rw [if_pos hcond] at hfe
        have hfe1 : f.1 = e.1 := Option.some.injEq .. ▸ hfe
        have : f = e := List.inj_on_of_nodup_map hnd hf he hfe1
        rw [← this]
        exact hcond
      · rw [if_neg hcond] at hfe
        exact Option.noConfusion hfe
    · intro hcond
      refine ⟨e, he, ?_⟩
      rw [if_pos hcond]

/-! ## Witnesses -/

theorem pack_behaviour_witness :
    ((registryIP.map (fun e => e.1)).Nodup) ∧
    (let st := (Pack CallConv.HHVM registryIP bitIdx1 0 rfDirty1 fiEmpty1).1
     let fi' := (Pack CallConv.HHVM registryIP bitIdx1 0 rfDirty1 fiEmpty1).2
     fi'.call_conv_packs = fiEmpty1.call_conv_packs ++ [st.record] ∧
     st.record.bb = 0 ∧
     st.record.block_dirty_regs = rfDirty1.dirty ∧
     (∀ e ∈ registryIP, hostEntry CallConv.HHVM e = false →
       alookup e.1 st.record.stores = some (rfDirty1.GetReg e.2) ∧
       Instr.store e.1 (rfDirty1.GetReg e.2) ∈ st.instrs ∧
       bitIdx1 e.2 ∉ st.rf.dirty ∧
       bitIdx1 e.2 ∈ st.rf.cleaned) ∧
     (∀ e ∈ registryIP, hostEntry CallConv.HHVM e = true →
       (e.2.1, rfDirty1.GetReg e.2) ∈ st.sunk ∧
       alookup e.1 st.record.stores = none) ∧
     (∀ i : Fin 1,
       (i ∈ st.rf.dirty ↔ i ∈ rfDirty1.dirty ∧
         ∀ e ∈ registryIP, hostEntry CallConv.HHVM e = true ∨
           bitIdx1 e.2 ≠ i) ∧
       (i ∈ st.rf.cleaned ↔ i ∈ rfDirty1.cleaned ∨
         ∃ e ∈ registryIP, hostEntry CallConv.HHVM e = false ∧
           bitIdx1 e.2 = i))) :=
  ⟨by decide,
   pack_behaviour CallConv.HHVM registryIP bitIdx1 0 rfDirty1 fiEmpty1
     (by decide)⟩

theorem unpack_behaviour_witness :
    ((registryIP.map (fun e => e.2)).Nodup) ∧
    (let res := Unpack CallConv.HHVM registryIP bitIdx1 rfDirty1
      (fun _ => Value.base 3)
     res.1.dirty = ∅ ∧
     (∀ k : RegKey, (alookup k res.1.vals).isSome ↔
       k ∈ registryIP.map (fun e => e.2)) ∧
     (∀ e ∈ registryIP, res.1.GetReg e.2 =
       if hostEntry CallConv.HHVM e then (fun _ => Value.base 3) e.2.1
       else Value.load e.1) ∧
     res.2 = (registryIP.filter (fun e => !hostEntry CallConv.HHVM e)).map
       (fun e => Instr.load e.1)) :=
  ⟨by decide,
   unpack_behaviour CallConv.HHVM registryIP bitIdx1 rfDirty1
     (fun _ => Value.base 3) (by decide)⟩

theorem ip_host_slot_zero_witness :
    ((0, X86Reg.IP, 0) ∈ registryIP) ∧
    ((registryIP.map (fun e => e.2)).Nodup) ∧
    (hhvm_is_host_reg X86Reg.IP = true ∧
     hhvm_arg_index X86Reg.IP = 0 ∧
     hhvm_ret_index X86Reg.IP = 0 ∧
     (CallConv.UnpackParams CallConv.HHVM registryIP bitIdx1
        rfDirty1).1.GetReg (X86Reg.IP, 0) = Value.param 0) :=
  ⟨by decide, by decide,
   ip_host_slot_zero registryIP bitIdx1 rfDirty1 0 0 (by decide) (by decide)⟩

theorem optimizeLoop_converges_witness :
    (CFGWellFormed cfgLoop ∧
     (∀ b ∈ cfgLoop.blocks, Reachable cfgLoop b) ∧
     (∃ fuel m, optimizeLoop cfgLoop fuel = some m ∧
       ∀ b ∈ cfgLoop.blocks,
         (alookup b m).isSome ∧
         (lookupD m b).2 = transfer cfgLoop b (lookupD m b).1 ∧
         (lookupD m b).1 = preOf cfgLoop m b)) ∧
    (CFGWellFormed cfgTrivial ∧
     (∀ b ∈ cfgTrivial.blocks, Reachable cfgTrivial b) ∧
     (∃ fuel m, optimizeLoop cfgTrivial fuel = some m ∧
       ∀ b ∈ cfgTrivial.blocks,
         (alookup b m).isSome ∧
         (lookupD m b).2 = transfer cfgTrivial b (lookupD m b).1 ∧
         (lookupD m b).1 = preOf cfgTrivial m b)) :=
  have hwfL : CFGWellFormed cfgLoop :=
    ⟨by decide, by decide, by decide, by decide⟩
  have hreachL : ∀ b ∈ cfgLoop.blocks, Reachable cfgLoop b := by
    have r0 : Reachable cfgLoop 0 := Reachable.entry
    have r1 : Reachable cfgLoop 1 := Reachable.step r0 (by decide)
    have r2 : Reachable cfgLoop 2 := Reachable.step r1 (by decide)
    have r3 : Reachable cfgLoop 3 := Reachable.step r1 (by decide)
    intro b hb
    simp only [cfgLoop, List.mem_cons, List.not_mem_nil, or_false] at hb
    rcases hb with rfl | rfl | rfl | rfl
    · exact r0
    · exact r1
    · exact r2
    · exact r3
  have hwfT : CFGWellFormed cfgTrivial :=
    ⟨by decide, by decide, by decide, by decide⟩
  have hreachT : ∀ b ∈ cfgTrivial.blocks, Reachable cfgTrivial b := by
    intro b hb
    have : b = 0 := by
      simpa [cfgTrivial] using hb
    subst this
    exact Reachable.entry
  ⟨⟨hwfL, hreachL, optimizeLoop_converges cfgLoop hwfL hreachL⟩,
   ⟨hwfT, hreachT, optimizeLoop_converges cfgTrivial hwfT hreachT⟩⟩

theorem optimizePacks_deletes_iff_witness :
    (optimizeLoop cfgLine 5 = some mLine) ∧
    (packLine ∈ fiLine.call_conv_packs) ∧
    (((0, X86Reg.IP, 0) : RegEntry) ∈ registryIP) ∧
    ((registryIP.map (fun f => f.1)).Nodup) ∧
    ((packLine, packErasedSlots
        ((lookupD mLine packLine.bb).1 ∪ packLine.block_dirty_regs)
        registryIP bitIdx1 packLine)
      ∈ (OptimizePacks cfgLine registryIP bitIdx1 fiLine 5).getD [] ∧
     (((0, X86Reg.IP, 0) : RegEntry).1 ∈ packErasedSlots
        ((lookupD mLine packLine.bb).1 ∪ packLine.block_dirty_regs)
        registryIP bitIdx1 packLine ↔
      (alookup ((0, X86Reg.IP, 0) : RegEntry).1 packLine.stores).isSome ∧
        bitIdx1 ((0, X86Reg.IP, 0) : RegEntry).2 ∉
          (lookupD mLine packLine.bb).1 ∪ packLine.block_dirty_regs)) :=
  ⟨by decide, by decide, by decide, by decide,
   optimizePacks_deletes_iff cfgLine registryIP bitIdx1 fiLine 5 mLine
     (by decide) packLine (by decide) (0, X86Reg.IP, 0) (by decide)
     (by decide)⟩

end Rellume
